import Mathlib

/-!
# Painterly rendering (`painterly_rendering/npr.cpp`)

A shallow embedding of the brush compositor, the importance-weighted stroke
samplers and the orientation bucketing of `npr.cpp`, with the properties of the
written specification stated and settled over it.

Modelling conventions.

* `float` samples are exact rationals (`ℚ`): rounding is not modelled, and the
  samples of an image are finite.  The one place where the code divides by a
  value that can be zero (the acceptance rate and the loop bound of the
  samplers) is modelled with the IEEE special values, see `FloatVal`.
* The number of iterations of a sampler depends on the rounding of its loop
  bound: for that count the rate and the bound are also computed in binary32
  (`roundBinary32`, `acceptanceRate32`, `loopCond32`), with the counter an `int`.
* `int` values are unbounded integers (`Int`): overflow is not modelled.  Image
  sizes are non-negative, so that `width / 2` is the same number whether the
  division truncates (C++) or rounds down (`Int`).
* `Image.h` is not part of the sources: an image is its three sizes and its
  accessor `im(x, y, z)`.
* `rand()` is a stream of draws `rand : Nat → Nat` read through a cursor kept
  in the sampler state; `RAND_MAX`, `scaleLin`, `rotate`, the eigen-solver and
  `atan2` belong to libraries and are parameters.
* The filters of `filtering.h` (blurs, gradients, luminance) are parameters too,
  see `Filters`; what a statement needs of a blur is a hypothesis of that
  statement (`NonnegKernel`).  The map `sharpnessMap` returns is the one image
  whose samples carry the IEEE special values (`FloatImage`).
-/

namespace Npr

/-! ## Images -/

/-- An image: `width()`, `height()`, `channels()` and the accessor `im(x, y, z)`. -/
structure Image where
  width : Int
  height : Int
  channels : Int
  px : Int → Int → Int → ℚ

/-- The constructor `Image(w, h, c)`: a zero-filled image. -/
def Image.zeros (w h c : Int) : Image := ⟨w, h, c, fun _ _ _ => 0⟩

/-- The assignment `im(x, y, z) = v`. -/
def Image.set (im : Image) (x y z : Int) (v : ℚ) : Image :=
  { im with px := fun a b c => if a = x ∧ b = y ∧ c = z then v else im.px a b c }

/-- The loop `for (int i = lo; i < hi; i++) s = body(i, s)`. -/
def forLoop {σ : Type} (lo hi : Int) (body : Int → σ → σ) (s : σ) : σ :=
  ((List.range (hi - lo).toNat).map (fun k : Nat => lo + (k : Int))).foldl
    (fun acc i => body i acc) s

/-- The element `color[z]` of a `vector<float>`. -/
def colorAt (color : List ℚ) (z : Int) : ℚ := color.getD z.toNat 0

/-! ## `brush` (npr.cpp 9-31) -/

/-- The assignment of line 25, for one channel `z` of the pixel `(x+dx, y+dy)`. -/
def brushChannel (x y : Int) (color : List ℚ) (texture : Image) (dx_offset dy_offset : Int)
    (dx dy z : Int) (im : Image) : Image :=
  im.set (x + dx) (y + dy) z
    (texture.px (dx + dx_offset) (dy + dy_offset) z * colorAt color z
      + (1 - texture.px (dx + dx_offset) (dy + dy_offset) z) * im.px (x + dx) (y + dy) z)

/-- The body of the `dy` loop (lines 21-27): the bounds test and the channel loop. -/
def brushPixel (x y : Int) (color : List ℚ) (texture : Image) (dx_offset dy_offset : Int)
    (dx dy : Int) (im : Image) : Image :=
  if x + dx ≥ 0 ∧ x + dx < im.width ∧ y + dy ≥ 0 ∧ y + dy < im.height then
    forLoop 0 im.channels (brushChannel x y color texture dx_offset dy_offset dx dy) im
  else im

/-- Draws a brushstroke defined by `texture` and `color` at `(x, y)` in `im`. -/
def brush (im : Image) (x y : Int) (color : List ℚ) (texture : Image) : Image :=
  let dx_offset := texture.width / 2
  let dy_offset := texture.height / 2
  forLoop (-dx_offset) (texture.width - dx_offset)
    (fun dx im =>
      forLoop (-dy_offset) (texture.height - dy_offset)
        (brushPixel x y color texture dx_offset dy_offset dx) im)
    im

/-! ## Floating-point division by zero -/

/-- A `float` value where the special values matter: a finite (exact) value,
an infinity or a NaN. -/
inductive FloatVal where
  | fin (q : ℚ)
  | posInf
  | negInf
  | nan

/-- IEEE division `a / b`, exact on finite operands with a non-zero divisor
(zeros are positive zeros). -/
def FloatVal.div : FloatVal → FloatVal → FloatVal
  | .fin a, .fin b =>
    if b = 0 then (if 0 < a then .posInf else if a < 0 then .negInf else .nan)
    else .fin (a / b)
  | .fin _, .posInf => .fin 0
  | .fin _, .negInf => .fin 0
  | .posInf, .fin b => if b < 0 then .negInf else .posInf
  | .negInf, .fin b => if b < 0 then .posInf else .negInf
  | _, _ => .nan

/-- IEEE comparison `a < b`: false as soon as an operand is a NaN. -/
def FloatVal.lt : FloatVal → FloatVal → Bool
  | .fin a, .fin b => decide (a < b)
  | .fin _, .posInf => true
  | .negInf, .fin _ => true
  | .negInf, .posInf => true
  | _, _ => false

/-! ## Loops that may not end -/

/-- What a loop has done once its fuel is spent: it has `returned` with a final
state, it is still `running` (the state reached so far), or it has hit a
`fault` (an access outside a container). -/
inductive Outcome (σ : Type) where
  | returned (s : σ)
  | running (s : σ)
  | fault

/-- The loop `while (cond(s)) s = body(s)`, run for at most `fuel` iterations. -/
def boundedLoop {σ : Type} (cond : σ → Bool) (body : σ → Option σ) : Nat → σ → Outcome σ
  | 0, s => if cond s then .running s else .returned s
  | fuel + 1, s =>
    if cond s then
      match body s with
      | some s1 => boundedLoop cond body fuel s1
      | none => .fault
    else .returned s

/-! ## The importance sampler (npr.cpp 49-84) -/

/-- The library functions and constants `npr.cpp` is compiled against. -/
structure Lib where
  RAND_MAX : Nat
  scaleLin : Image → ℚ → Image
  rotate : Image → ℚ → Image
  solver : ℚ → ℚ → ℚ → ℚ → (ℚ × ℚ) × ((ℚ × ℚ) × (ℚ × ℚ))
  atan2 : ℚ → ℚ → ℚ

/-- Modelled from the spec: `Image::smartAccessor(x, y, z, true)` of `Image.h`,
the clamped-edge accessor (coordinates outside the image are clamped to the
nearest valid pixel). -/
def smartAccessor (im : Image) (x y z : Int) : ℚ :=
  im.px (max 0 (min x (im.width - 1))) (max 0 (min y (im.height - 1))) z

/-- An accepted stroke: its centre and its colour. -/
structure Stroke where
  x : Int
  y : Int
  color : List ℚ
deriving DecidableEq

/-- The state of a sampler's main loop: the canvas `out`, the number of
`rand()` calls made so far, the loop counter `i`, and (for the statements only)
the accepted strokes in the order they were composited. -/
structure SamplerState where
  out : Image
  cursor : Nat
  i : Int
  strokes : List Stroke

/-- The saturating weight that lines 61-68 add to `p_total` for one pixel. -/
def addWeight (v p_total : ℚ) : ℚ :=
  if v > 0 ∧ v < 1 then p_total + v
  else if v ≥ 1 then p_total + 1
  else p_total

/-- The sum `p_total` of lines 56-70 (and 201-215). -/
def totalWeight (importance : Image) : ℚ :=
  forLoop 0 importance.width
    (fun x p_total =>
      forLoop 0 importance.height (fun y p_total => addWeight (importance.px x y 0) p_total)
        p_total)
    0

/-- The rate `p_accept = p_total / (importance.width() * importance.height())`
of line 71 (and 216). -/
def acceptanceRate (importance : Image) : FloatVal :=
  FloatVal.div (.fin (totalWeight importance))
    (.fin ((importance.width * importance.height : Int) : ℚ))

/-- The loop test `i < N / p_accept` of line 73 (and 218), with the exact quotient
and an unbounded counter; `loopCond32` is the same test with the quotient rounded
to `float`. -/
def loopCond (N : Int) (p_accept : FloatVal) (st : SamplerState) : Bool :=
  FloatVal.lt (.fin (st.i : ℚ)) (FloatVal.div (.fin (N : ℚ)) p_accept)

/-- The acceptance test `rand() / RAND_MAX < importance(x, y, 0)` of line 77
(and 222) for the draw `r`: the quotient of two `int`s is an `int`. -/
def accept (RAND_MAX r : Nat) (v : ℚ) : Bool :=
  decide ((((r / RAND_MAX : Nat) : Int) : ℚ) < v)

/-- The colour of line 79 (and 224): three draws, one per channel, starting at
the draw number `c`. -/
def strokeColor (RAND_MAX : Nat) (rand : Nat → Nat) (im : Image) (x y : Int) (noise : ℚ)
    (c : Nat) : List ℚ :=
  [smartAccessor im x y 0 * (1 - noise / 2 + noise * (rand c : ℚ) / (RAND_MAX : ℚ)),
   smartAccessor im x y 1 * (1 - noise / 2 + noise * (rand (c + 1) : ℚ) / (RAND_MAX : ℚ)),
   smartAccessor im x y 2 * (1 - noise / 2 + noise * (rand (c + 2) : ℚ) / (RAND_MAX : ℚ))]

/-- The candidate position of lines 75-76 (and 220-221) drawn at cursor `c`. -/
def candidate (rand : Nat → Nat) (out : Image) (c : Nat) : Int × Int :=
  ((rand c : Int) % out.width, (rand (c + 1) : Int) % out.height)

/-- One iteration of the main loop (lines 75-81), followed by `i++`. -/
def importanceStep (RAND_MAX : Nat) (rand : Nat → Nat) (im importance scaled_texture : Image)
    (noise : ℚ) (st : SamplerState) : SamplerState :=
  let x := (candidate rand st.out st.cursor).1
  let y := (candidate rand st.out st.cursor).2
  if accept RAND_MAX (rand (st.cursor + 2)) (importance.px x y 0) then
    let color := strokeColor RAND_MAX rand im x y noise (st.cursor + 3)
    { out := brush st.out x y color scaled_texture
      cursor := st.cursor + 6
      i := st.i + 1
      strokes := st.strokes ++ [⟨x, y, color⟩] }
  else
    { st with cursor := st.cursor + 3, i := st.i + 1 }

/-- The scale factor of line 53 (and 37, 180). -/
def scaleFactor (texture : Image) (size : Int) : ℚ :=
  min ((size : ℚ) / (texture.width : ℚ)) ((size : ℚ) / (texture.height : ℚ))

/-- Creates a painted rendering, the density of the strokes varying according
to an importance map; `fuel` bounds the iterations of the main loop. -/
def singleScalePaintImportance (L : Lib) (rand : Nat → Nat) (fuel : Nat)
    (im importance out texture : Image) (size N : Int) (noise : ℚ) : Outcome SamplerState :=
  let factor := scaleFactor texture size
  let scaled_texture := L.scaleLin texture factor
  let p_accept := acceptanceRate importance
  boundedLoop (loopCond N p_accept)
    (fun st => some (importanceStep L.RAND_MAX rand im importance scaled_texture noise st))
    fuel ⟨out, 0, 0, []⟩

/-! ## Orientation (npr.cpp 126-229) -/

/-- The constant `float pi = 3.1415926535897`. -/
def pi : ℚ := 31415926535897 / 10000000000000

/-- The eigenvector chosen at lines 142-149 and 193 from the solver's answer
`((l0, l1), (v0, v1))`: eigenvalues, then the eigenvector columns. -/
def selectEvector (e : (ℚ × ℚ) × ((ℚ × ℚ) × (ℚ × ℚ))) : ℚ × ℚ :=
  if e.1.1 < e.1.2 then e.2.1 else e.2.2

/-- Lines 195-196: the `atan2` angle brought to `[0, 2 pi)`, then mapped to
`1 - angle / (2 pi)`. -/
def orientationUnit (angle : ℚ) : ℚ :=
  let angle := if angle < 0 then angle + 2 * pi else angle
  1 - angle / (2 * pi)

/-- Lines 190-197: the value stored in `angle_textures(x, y, 0)`. -/
def orientationBucket (L : Lib) (tensor : Image) (nAngles : Int) (x y : Int) : Int :=
  let e := L.solver (tensor.px x y 0) (tensor.px x y 1) (tensor.px x y 1) (tensor.px x y 2)
  let evector := selectEvector e
  let angle := L.atan2 evector.2 evector.1
  ⌊orientationUnit angle * (nAngles : ℚ)⌋

/-- Lines 134-155: the value `testAngle` writes at `(x, y)`. -/
def testAngleValue (L : Lib) (tensor : Image) (x y : Int) : ℚ :=
  let e := L.solver (tensor.px x y 0) (tensor.px x y 1) (tensor.px x y 1) (tensor.px x y 2)
  let evector := selectEvector e
  let angle := L.atan2 evector.2 evector.1
  let angle := if angle < 0 then angle + 2 * pi else angle
  let angle := angle / (2 * pi)
  1 - angle

/-- Returns the list of `nAngles` images rotated by `i * 2 pi / nAngles`. -/
def rotateBrushes (L : Lib) (im : Image) (nAngles : Int) : List Image :=
  forLoop 0 nAngles
    (fun i rotatedBrushes =>
      let theta := (i : ℚ) / (nAngles : ℚ) * 2 * pi
      rotatedBrushes ++ [L.rotate im theta])
    []

/-- The image `angle_textures` of lines 184-199. -/
def angleTextures (L : Lib) (im tensor : Image) (nAngles : Int) : Image :=
  forLoop 0 im.width
    (fun x a =>
      forLoop 0 im.height
        (fun y a => a.set x y 0 (orientationBucket L tensor nAngles x y : ℚ)) a)
    (Image.zeros im.width im.height 1)

/-- The element `rotated_textures[v]` for a `float` index `v`; `none` when the
index is outside the vector. -/
def textureAt (rotated_textures : List Image) (v : ℚ) : Option Image :=
  if 0 ≤ ⌊v⌋ then rotated_textures.get? (⌊v⌋).toNat else none

/-- One iteration of the main loop (lines 220-226), followed by `i++`; `none`
when `rotated_textures` is indexed outside its bounds. -/
def orientedStep (RAND_MAX : Nat) (rand : Nat → Nat) (im importance : Image)
    (rotated_textures : List Image) (angle_textures : Image)
    (noise : ℚ) (st : SamplerState) : Option SamplerState :=
  let x := (candidate rand st.out st.cursor).1
  let y := (candidate rand st.out st.cursor).2
  if accept RAND_MAX (rand (st.cursor + 2)) (importance.px x y 0) then
    let color := strokeColor RAND_MAX rand im x y noise (st.cursor + 3)
    match textureAt rotated_textures (angle_textures.px x y 0) with
    | some texture =>
      some { out := brush st.out x y color texture
             cursor := st.cursor + 6
             i := st.i + 1
             strokes := st.strokes ++ [⟨x, y, color⟩] }
    | none => none
  else
    some { st with cursor := st.cursor + 3, i := st.i + 1 }

/-- Similar to `singleScalePaintImportance`, but the brush strokes are oriented
according to `tensor`; `fuel` bounds the iterations of the main loop. -/
def singleScaleOrientedPaint (L : Lib) (rand : Nat → Nat) (fuel : Nat)
    (im importance out tensor texture : Image) (size N : Int) (noise : ℚ) (nAngles : Int) :
    Outcome SamplerState :=
  let factor := scaleFactor texture size
  let scaled_texture := L.scaleLin texture factor
  let rotated_textures := rotateBrushes L scaled_texture nAngles
  let angle_textures := angleTextures L im tensor nAngles
  let p_accept := acceptanceRate importance
  boundedLoop (loopCond N p_accept)
    (orientedStep L.RAND_MAX rand im importance rotated_textures angle_textures noise)
    fuel ⟨out, 0, 0, []⟩

/-! ## Filtering and image arithmetic -/

/-- The functions of `filtering.h` and `basicImageManipulation.h` that `npr.cpp`
calls, and the default `sigma` that `npr.h` declares for `sharpnessMap`;
`luminance im` is `lumiChromi(im)[0]`. -/
structure Filters where
  luminance : Image → Image
  gaussianBlur_2D : Image → ℚ → Image
  gaussianBlur_separable : Image → ℚ → Image
  gradientX : Image → Image
  gradientY : Image → Image
  sigma : ℚ

/-- Modelled from the spec: `Image::operator-` of `Image.h`, the sample-wise
difference (the residual `luminance - lowpass`). -/
def Image.sub (a b : Image) : Image :=
  { a with px := fun x y z => a.px x y z - b.px x y z }

/-- Modelled from the spec: `Image::operator*` of `Image.h`, the sample-wise
product (the square of the residual). -/
def Image.mul (a b : Image) : Image :=
  { a with px := fun x y z => a.px x y z * b.px x y z }

/-- Modelled from the spec: `Image::max()` of `Image.h`, the global maximum of the
samples of a non-empty image. -/
def Image.max (im : Image) : ℚ :=
  forLoop 0 im.width
    (fun x m =>
      forLoop 0 im.height
        (fun y m => forLoop 0 im.channels (fun z m => Max.max m (im.px x y z)) m) m)
    (im.px 0 0 0)

/-- An image whose samples may be infinities or NaNs. -/
structure FloatImage where
  width : Int
  height : Int
  channels : Int
  px : Int → Int → Int → FloatVal

/-- Modelled from the spec: `Image::operator/` of `Image.h` with a `float` divisor,
every sample divided by `s` ("normalize by dividing by the field's global
maximum"). -/
def Image.divScalar (im : Image) (s : ℚ) : FloatImage :=
  ⟨im.width, im.height, im.channels, fun x y z => FloatVal.div (.fin (im.px x y z)) (.fin s)⟩

/-- Lines 89-92: the smoothed detail energy `lum_sharp`. -/
def lum_sharp (F : Filters) (im : Image) (sigma : ℚ) : Image :=
  let lum := F.luminance im
  let lum_low := F.gaussianBlur_2D lum sigma
  let lum_high := (lum.sub lum_low).mul (lum.sub lum_low)
  F.gaussianBlur_2D lum_high (4 * sigma)

/-- Calculates the sharpness mask: `lum_sharp / lum_sharp.max()`. -/
def sharpnessMap (F : Filters) (im : Image) (sigma : ℚ) : FloatImage :=
  (lum_sharp F im sigma).divScalar (lum_sharp F im sigma).max

/-! ## `computeTensor` and `testAngle` (npr.cpp 105-157) -/

/-- Lines 112-121: the image `M` of the outer products of the gradient. -/
def outerProducts (im Ix Iy : Image) : Image :=
  forLoop 0 im.width
    (fun x M =>
      forLoop 0 im.height
        (fun y M =>
          ((M.set x y 0 (Ix.px x y 0 * Ix.px x y 0)).set x y 1
            (Ix.px x y 0 * Iy.px x y 0)).set x y 2 (Iy.px x y 0 * Iy.px x y 0))
        M)
    (Image.zeros im.width im.height 3)

/-- Computes the xx/xy/yy tensor of an image (stored in that order). -/
def computeTensor (F : Filters) (im : Image) (sigmaG factorSigma : ℚ) : Image :=
  let lum := F.luminance im
  let blurred := F.gaussianBlur_separable lum sigmaG
  let Ix := F.gradientX blurred
  let Iy := F.gradientY blurred
  let M := outerProducts im Ix Iy
  F.gaussianBlur_separable M (sigmaG * factorSigma)

/-- Extracts the orientation of the features of `im`. -/
def testAngle (F : Filters) (L : Lib) (im : Image) (sigmaG factor : ℚ) : Image :=
  let tensor := computeTensor F im sigmaG factor
  forLoop 0 im.width
    (fun x out =>
      forLoop 0 im.height (fun y out => out.set x y 0 (testAngleValue L tensor x y)) out)
    (Image.zeros im.width im.height 1)

/-! ## `singleScalePaint` and `painterly` (npr.cpp 33-47, 96-103) -/

/-- One iteration of the loop of `singleScalePaint` (lines 41-44), followed by
`i++`: a position, a colour, a stroke, and no acceptance draw. -/
def paintStep (RAND_MAX : Nat) (rand : Nat → Nat) (im scaled_texture : Image)
    (noise : ℚ) (st : SamplerState) : SamplerState :=
  let x := (candidate rand st.out st.cursor).1
  let y := (candidate rand st.out st.cursor).2
  let color := strokeColor RAND_MAX rand im x y noise (st.cursor + 2)
  { out := brush st.out x y color scaled_texture
    cursor := st.cursor + 5
    i := st.i + 1
    strokes := st.strokes ++ [⟨x, y, color⟩] }

/-- Creates a painted rendering by splatting brushstrokes at `N` random locations
of the output image. -/
def singleScalePaint (L : Lib) (rand : Nat → Nat) (im out texture : Image) (size N : Int)
    (noise : ℚ) : SamplerState :=
  let factor := scaleFactor texture size
  let scaled_texture := L.scaleLin texture factor
  forLoop 0 N (fun _ st => paintStep L.RAND_MAX rand im scaled_texture noise st)
    ⟨out, 0, 0, []⟩

/-- The integer nearest to `r`, a tie going to the even one. -/
def roundHalfEven (r : ℚ) : Int :=
  if r - (⌊r⌋ : ℚ) < 1 / 2 then ⌊r⌋
  else if 1 / 2 < r - (⌊r⌋ : ℚ) then ⌊r⌋ + 1
  else if ⌊r⌋ % 2 = 0 then ⌊r⌋
  else ⌊r⌋ + 1

/-- The binary exponent of a `float` near `q`: `floor(log2 |q|)`, and -126 in the
subnormal range. -/
def binaryExponent (q : ℚ) : Int := Max.max (Int.log 2 |q|) (-126)

/-- The `float` (IEEE binary32, round to nearest, ties to even) that an exact
result `q` is rounded to: a 24-bit significand, the exponent range of binary32,
an infinity past the largest finite value. -/
def roundBinary32 (q : ℚ) : FloatVal :=
  if q = 0 then .fin 0
  else if (2 : ℚ) ^ 128 ≤ (roundHalfEven (q / (2 : ℚ) ^ (binaryExponent q - 23)) : ℚ)
      * (2 : ℚ) ^ (binaryExponent q - 23) then .posInf
  else if (roundHalfEven (q / (2 : ℚ) ^ (binaryExponent q - 23)) : ℚ)
      * (2 : ℚ) ^ (binaryExponent q - 23) ≤ -(2 : ℚ) ^ 128 then .negInf
  else .fin ((roundHalfEven (q / (2 : ℚ) ^ (binaryExponent q - 23)) : ℚ)
      * (2 : ℚ) ^ (binaryExponent q - 23))

/-- The conversion `float(n)` of an `int`. -/
def FloatVal.ofInt32 (n : Int) : FloatVal := roundBinary32 (n : ℚ)

/-- The `float` sum `a + b`. -/
def FloatVal.add32 : FloatVal → FloatVal → FloatVal
  | .fin a, .fin b => roundBinary32 (a + b)
  | .fin _, .posInf => .posInf
  | .fin _, .negInf => .negInf
  | .posInf, .fin _ => .posInf
  | .negInf, .fin _ => .negInf
  | .posInf, .posInf => .posInf
  | .negInf, .negInf => .negInf
  | _, _ => .nan

/-- The `float` quotient `a / b`. -/
def FloatVal.div32 (a b : FloatVal) : FloatVal :=
  match FloatVal.div a b with
  | .fin q => roundBinary32 q
  | v => v

/-- Lines 61-68 in `float`: the weight of one pixel added to `p_total`. -/
def addWeight32 (v : ℚ) (p_total : FloatVal) : FloatVal :=
  if v > 0 ∧ v < 1 then FloatVal.add32 p_total (.fin v)
  else if v ≥ 1 then FloatVal.add32 p_total (.fin 1)
  else p_total

/-- The sum `p_total` of lines 56-70 (and 201-215), each `+=` rounded. -/
def totalWeight32 (importance : Image) : FloatVal :=
  forLoop 0 importance.width
    (fun x p_total =>
      forLoop 0 importance.height
        (fun y p_total => addWeight32 (importance.px x y 0) p_total) p_total)
    (.fin 0)

/-- The rate `p_accept` of line 71 (and 216) in `float`: the `int` product
converted, the quotient rounded. -/
def acceptanceRate32 (importance : Image) : FloatVal :=
  FloatVal.div32 (totalWeight32 importance)
    (FloatVal.ofInt32 (importance.width * importance.height))

/-- The loop test `i < N / p_accept` of line 73 (and 218) in `float`: `i` and `N`
converted, the quotient rounded. -/
def loopCond32 (N : Int) (p_accept : FloatVal) (st : SamplerState) : Bool :=
  FloatVal.lt (FloatVal.ofInt32 st.i) (FloatVal.div32 (FloatVal.ofInt32 N) p_accept)

/-- The largest `int`. -/
def INT_MAX : Int := 2147483647

/-- The function `singleScalePaintImportance` with the loop bound computed in
`float` and the counter `i` an `int`: `i++` at `INT_MAX` is a fault. -/
def singleScalePaintImportance32 (L : Lib) (rand : Nat → Nat) (fuel : Nat)
    (im importance out texture : Image) (size N : Int) (noise : ℚ) : Outcome SamplerState :=
  let factor := scaleFactor texture size
  let scaled_texture := L.scaleLin texture factor
  let p_accept := acceptanceRate32 importance
  boundedLoop (loopCond32 N p_accept)
    (fun st =>
      if st.i < INT_MAX then
        some (importanceStep L.RAND_MAX rand im importance scaled_texture noise st)
      else none)
    fuel ⟨out, 0, 0, []⟩

/-- The function `singleScaleOrientedPaint` with the loop bound computed in `float`
and the counter `i` an `int`. -/
def singleScaleOrientedPaint32 (L : Lib) (rand : Nat → Nat) (fuel : Nat)
    (im importance out tensor texture : Image) (size N : Int) (noise : ℚ) (nAngles : Int) :
    Outcome SamplerState :=
  let factor := scaleFactor texture size
  let scaled_texture := L.scaleLin texture factor
  let rotated_textures := rotateBrushes L scaled_texture nAngles
  let angle_textures := angleTextures L im tensor nAngles
  let p_accept := acceptanceRate32 importance
  boundedLoop (loopCond32 N p_accept)
    (fun st =>
      if st.i < INT_MAX then
        orientedStep L.RAND_MAX rand im importance rotated_textures angle_textures noise st
      else none)
    fuel ⟨out, 0, 0, []⟩

/-! ## Definitions used by the statements -/

/-- The map `f` keeps the sizes `W`, `H`, `C` and rewrites each sample by `g`. -/
def Pointwise (W H C : Int) (f : Image → Image) (g : Int → Int → Int → ℚ → ℚ) : Prop :=
  ∀ im : Image, im.width = W → im.height = H → im.channels = C →
    (f im).width = W ∧ (f im).height = H ∧ (f im).channels = C ∧
      ∀ p q c, (f im).px p q c = g p q c (im.px p q c)

/-- The value line 25 gives a sample `v` of the pixel reached by `(dx, dy)`. -/
def blend (color : List ℚ) (texture : Image) (dx_offset dy_offset dx dy z : Int) (v : ℚ) : ℚ :=
  texture.px (dx + dx_offset) (dy + dy_offset) z * colorAt color z
    + (1 - texture.px (dx + dx_offset) (dy + dy_offset) z) * v

/-- The pixels a stroke centred at `(x, y)` covers: the footprint of the texture
(`dx` from `-dx_offset` to `width - dx_offset - 1`, the same for `dy`), cut to
the canvas `W x H` and to its `C` channels. -/
def Covered (W H C : Int) (x y : Int) (texture : Image) (p q c : Int) : Prop :=
  (-(texture.width / 2) ≤ p - x ∧ p - x < texture.width - texture.width / 2) ∧
  (-(texture.height / 2) ≤ q - y ∧ q - y < texture.height - texture.height / 2) ∧
  (0 ≤ p ∧ p < W ∧ 0 ≤ q ∧ q < H) ∧ (0 ≤ c ∧ c < C)

instance (W H C x y : Int) (texture : Image) (p q c : Int) :
    Decidable (Covered W H C x y texture p q c) := by
  unfold Covered
  infer_instance

/-- The saturating weight of an importance value: the value itself strictly
between 0 and 1, 1 from 1 on, 0 otherwise. -/
def satWeight (v : ℚ) : ℚ :=
  if 0 < v ∧ v < 1 then v else if 1 ≤ v then 1 else 0

/-- The state a loop has reached, whether it has returned or is still running. -/
def Outcome.reached {σ : Type} : Outcome σ → Option σ
  | .returned s => some s
  | .running s => some s
  | .fault => none

/-- Every stroke logged so far is centred on a pixel of positive importance. -/
def StrokesPositive (importance : Image) (st : SamplerState) : Prop :=
  ∀ s ∈ st.strokes, 0 < importance.px s.x s.y 0

/-- The `atan2` angle brought to `[0, 2 pi)` by adding `2 pi` when it is
negative, in the words of the specification. -/
def normalizedAngle (angle : ℚ) : ℚ :=
  if angle < 0 then angle + 2 * pi else angle

/-- The blur keeps the sizes of its input and each of its samples is a
combination of the input samples of the same channel with non-negative weights,
the weights being the same for every channel. -/
def NonnegKernel (blur : Image → ℚ → Image) : Prop :=
  ∀ (im : Image) (sigma : ℚ),
    (blur im sigma).width = im.width ∧ (blur im sigma).height = im.height ∧
    (blur im sigma).channels = im.channels ∧
    ∃ w : Int → Int → Int → Int → ℚ, (∀ x y a b, 0 ≤ w x y a b) ∧
      ∀ x y c : Int, (0 ≤ x ∧ x < im.width) → (0 ≤ y ∧ y < im.height) →
        (0 ≤ c ∧ c < im.channels) →
        (blur im sigma).px x y c
          = ∑ a in Finset.range im.width.toNat, ∑ b in Finset.range im.height.toNat,
              w x y (a : Int) (b : Int) * im.px (a : Int) (b : Int) c

/-- The map `G` raises a running maximum `m` to the maximum of `m` and of the
values that satisfy `S`. -/
def MaxStep (S : ℚ → Prop) (G : ℚ → ℚ) : Prop :=
  ∀ m, m ≤ G m ∧ (∀ v, S v → v ≤ G m) ∧ (G m = m ∨ S (G m))

/-- The canvas after the strokes of a list have been composited in order with
one texture. -/
def composite (texture canvas : Image) (strokes : List Stroke) : Image :=
  strokes.foldl (fun cv s => brush cv s.x s.y s.color texture) canvas

/-- Every stroke logged so far has the colour line 79 (43, 224) computes at its
centre from three consecutive draws. -/
def StrokesColored (RAND_MAX : Nat) (rand : Nat → Nat) (im : Image) (noise : ℚ)
    (st : SamplerState) : Prop :=
  ∀ s ∈ st.strokes, ∃ c : Nat, s.color = strokeColor RAND_MAX rand im s.x s.y noise c

/-- A library for the examples: glibc's `RAND_MAX`, resampling and rotation that
hand the texture back, the eigen-decomposition of a diagonal matrix (the
eigenvalues in diagonal order, the unit vectors as eigenvectors) and `atan2` on
the coordinate axes. -/
def axisLib : Lib where
  RAND_MAX := 2147483647
  scaleLin := fun t _ => t
  rotate := fun t _ => t
  solver := fun a _ _ d => ((a, d), ((1, 0), (0, 1)))
  atan2 := fun y x => if y = 0 then (if 0 ≤ x then 0 else pi) else if 0 < y then pi / 2 else -(pi / 2)

/-- Filters for the examples: the luminance is the image itself, the blurs
and the gradients hand their input back. -/
def axisFilters : Filters where
  luminance := fun im => im
  gaussianBlur_2D := fun im _ => im
  gaussianBlur_separable := fun im _ => im
  gradientX := fun im => im
  gradientY := fun im => im
  sigma := 1

/-- A stream of distinct draws below `RAND_MAX` for the examples. -/
def stepDraws (k : Nat) : Nat := 100000000 * k

/-- A blur for the examples: every sample multiplied by the weight `t`. -/
def scaledBlur (t : ℚ) (im : Image) (_sigma : ℚ) : Image :=
  { im with px := fun x y c => t * im.px x y c }

/-- Filters for the examples whose blurs halve every sample. -/
def halfFilters : Filters where
  luminance := fun im => im
  gaussianBlur_2D := scaledBlur (1 / 2)
  gaussianBlur_separable := scaledBlur (1 / 2)
  gradientX := fun im => im
  gradientY := fun im => im
  sigma := 1

/-- The `float` nearest to 0.04, `0x3D23D70A`. -/
def float004 : ℚ := 5368709 / 134217728

/-- A 1 x 1 importance map holding the `float` 0.04. -/
def sparseMap : Image := ⟨1, 1, 1, fun _ _ _ => float004⟩

/-- A `w x h` image of constant value `v`, with `c` channels. -/
def constImage (w h c : Int) (v : ℚ) : Image := ⟨w, h, c, fun _ _ _ => v⟩

/-- A 1 x 1 tensor field with `Ixx = 0`, `Ixy = 0`, `Iyy = 1`: the luminance
varies along `y` only. -/
def rowTensor : Image := ⟨1, 1, 3, fun _ _ c => if c = 2 then 1 else 0⟩

/-- A 2 x 2 importance map with the value 5 at `(1, 0)` and 0 elsewhere. -/
def spikeMap : Image := ⟨2, 2, 1, fun x y _ => if x = 1 ∧ y = 0 then 5 else 0⟩

/-- A 3 x 3 one-channel canvas whose sample at `(p, q)` is `p + 3 q`. -/
def rampCanvas : Image := ⟨3, 3, 1, fun p q _ => (p : ℚ) + 3 * (q : ℚ)⟩

/-- A 2 x 2 one-channel texture of constant value `t`. -/
def flatTexture (t : ℚ) : Image := ⟨2, 2, 1, fun _ _ _ => t⟩

/-! ## Loop lemmas -/

theorem forLoop_id {σ : Type} (lo hi : Int) (body : Int → σ → σ)
    (h : ∀ i s, body i s = s) (s : σ) : forLoop lo hi body s = s := by
  unfold forLoop
  generalize (List.range (hi - lo).toNat).map (fun k : Nat => lo + (k : Int)) = l
  induction l generalizing s with
  | nil => rfl
  | cons a l ih => simp [List.foldl_cons, h, ih]

theorem foldl_single {ι α : Type} (g : ι → α → α) (i0 : ι)
    (h : ∀ i, i ≠ i0 → ∀ v, g i v = v) (l : List ι) (hl : l.Nodup) (v : α) :
    l.foldl (fun acc i => g i acc) v = (open Classical in if i0 ∈ l then g i0 v else v) := by
  classical
  induction l generalizing v with
  | nil => simp
  | cons a l ih =>
    rw [List.nodup_cons] at hl
    rw [List.foldl_cons, ih hl.2]
    by_cases ha : a = i0
    · subst ha
      simp [hl.1]
    · have hne : ¬ i0 = a := fun e => ha e.symm
      simp [h a ha, List.mem_cons, hne]

theorem forLoop_single {α : Type} (lo hi : Int) (g : Int → α → α) (i0 : Int)
    (h : ∀ i, i ≠ i0 → ∀ v, g i v = v) (v : α) :
    forLoop lo hi g v = if lo ≤ i0 ∧ i0 < hi then g i0 v else v := by
  unfold forLoop
  have hnd : ((List.range (hi - lo).toNat).map (fun k : Nat => lo + (k : Int))).Nodup := by
    apply List.Nodup.map _ (List.nodup_range _)
    intro a b hab
    simpa using hab
  rw [foldl_single g i0 h _ hnd]
  have hmem : i0 ∈ (List.range (hi - lo).toNat).map (fun k : Nat => lo + (k : Int))
      ↔ lo ≤ i0 ∧ i0 < hi := by
    simp only [List.mem_map, List.mem_range]
    constructor
    · rintro ⟨k, hk, rfl⟩
      omega
    · intro hh
      exact ⟨(i0 - lo).toNat, by omega, by omega⟩
  by_cases hc : lo ≤ i0 ∧ i0 < hi
  · rw [if_pos (hmem.2 hc), if_pos hc]
  · rw [if_neg (fun hh => hc (hmem.1 hh)), if_neg hc]

/-! ## `brush` acts pixel by pixel -/

theorem Pointwise.forLoop {W H C : Int} {body : Int → Image → Image}
    {g : Int → Int → Int → Int → ℚ → ℚ} (h : ∀ i, Pointwise W H C (body i) (g i))
    (lo hi : Int) :
    Pointwise W H C (Npr.forLoop lo hi body)
      (fun p q c v => Npr.forLoop lo hi (fun i v => g i p q c v) v) := by
  intro im hW hH hC
  unfold Npr.forLoop
  generalize (List.range (hi - lo).toNat).map (fun k : Nat => lo + (k : Int)) = l
  induction l generalizing im with
  | nil => exact ⟨hW, hH, hC, fun _ _ _ => rfl⟩
  | cons a l ih =>
    obtain ⟨hW1, hH1, hC1, hpx⟩ := h a im hW hH hC
    obtain ⟨hW2, hH2, hC2, hpx2⟩ := ih (body a im) hW1 hH1 hC1
    refine ⟨hW2, hH2, hC2, fun p q c => ?_⟩
    simp only [List.foldl_cons] at hpx2 ⊢
    rw [hpx2 p q c, hpx p q c]

theorem brushChannel_pointwise (W H C x y : Int) (color : List ℚ) (texture : Image)
    (ox oy dx dy z : Int) :
    Pointwise W H C (brushChannel x y color texture ox oy dx dy z)
      (fun p q c v =>
        if p = x + dx ∧ q = y + dy ∧ c = z then blend color texture ox oy dx dy z v else v) := by
  intro im hW hH hC
  refine ⟨hW, hH, hC, fun p q c => ?_⟩
  simp only [brushChannel, Image.set, blend]
  by_cases hc : p = x + dx ∧ q = y + dy ∧ c = z
  · obtain ⟨rfl, rfl, rfl⟩ := hc
    simp
  · rw [if_neg hc, if_neg hc]

theorem brushPixel_pointwise (W H C x y : Int) (color : List ℚ) (texture : Image)
    (ox oy dx dy : Int) :
    Pointwise W H C (brushPixel x y color texture ox oy dx dy)
      (fun p q c v =>
        if p = x + dx ∧ q = y + dy ∧ (0 ≤ p ∧ p < W ∧ 0 ≤ q ∧ q < H) ∧ (0 ≤ c ∧ c < C)
        then blend color texture ox oy dx dy c v else v) := by
  intro im hW hH hC
  unfold brushPixel
  by_cases hg : x + dx ≥ 0 ∧ x + dx < im.width ∧ y + dy ≥ 0 ∧ y + dy < im.height
  · rw [if_pos hg]
    obtain ⟨h1, h2, h3, hpx⟩ :=
      Pointwise.forLoop (fun z => brushChannel_pointwise W H C x y color texture ox oy dx dy z)
        0 im.channels im hW hH hC
    refine ⟨h1, h2, h3, fun p q c => ?_⟩
    rw [hpx p q c]
    beta_reduce
    rw [forLoop_single 0 im.channels _ c]
    · rw [hW, hH] at hg
      by_cases hcov : p = x + dx ∧ q = y + dy ∧ (0 ≤ p ∧ p < W ∧ 0 ≤ q ∧ q < H)
          ∧ (0 ≤ c ∧ c < C)
      · have hcc : 0 ≤ c ∧ c < im.channels := by rw [hC]; exact hcov.2.2.2
        rw [if_pos hcov, if_pos hcc, if_pos ⟨hcov.1, hcov.2.1, rfl⟩]
      · rw [if_neg hcov]
        split_ifs with a b
        · exfalso
          apply hcov
          obtain ⟨rfl, rfl, -⟩ := b
          rw [hC] at a
          exact ⟨rfl, rfl, ⟨hg.1, hg.2.1, hg.2.2.1, hg.2.2.2⟩, a⟩
        · rfl
        · rfl
    · intro i hi v
      have : ¬ (p = x + dx ∧ q = y + dy ∧ c = i) := fun hh => hi hh.2.2.symm
      rw [if_neg this]
  · rw [if_neg hg]
    refine ⟨hW, hH, hC, fun p q c => ?_⟩
    rw [hW, hH] at hg
    have : ¬ (p = x + dx ∧ q = y + dy ∧ (0 ≤ p ∧ p < W ∧ 0 ≤ q ∧ q < H) ∧ (0 ≤ c ∧ c < C)) := by
      rintro ⟨rfl, rfl, hb, -⟩
      exact hg ⟨hb.1, hb.2.1, hb.2.2.1, hb.2.2.2⟩
    beta_reduce
    rw [if_neg this]

theorem brush_pointwise (W H C x y : Int) (color : List ℚ) (texture : Image) :
    Pointwise W H C (fun im => brush im x y color texture)
      (fun p q c v =>
        if Covered W H C x y texture p q c
        then blend color texture (texture.width / 2) (texture.height / 2) (p - x) (q - y) c v
        else v) := by
  intro im hW hH hC
  have hrow : ∀ dx, Pointwise W H C
      (fun im => Npr.forLoop (-(texture.height / 2)) (texture.height - texture.height / 2)
        (brushPixel x y color texture (texture.width / 2) (texture.height / 2) dx) im) _ :=
    fun dx => Pointwise.forLoop
      (fun dy => brushPixel_pointwise W H C x y color texture
        (texture.width / 2) (texture.height / 2) dx dy) _ _
  obtain ⟨h1, h2, h3, hpx⟩ :=
    Pointwise.forLoop hrow (-(texture.width / 2)) (texture.width - texture.width / 2)
      im hW hH hC
  refine ⟨h1, h2, h3, fun p q c => ?_⟩
  have hb : (brush im x y color texture).px p q c
      = (Npr.forLoop (-(texture.width / 2)) (texture.width - texture.width / 2)
          (fun dx im => Npr.forLoop (-(texture.height / 2))
            (texture.height - texture.height / 2)
            (brushPixel x y color texture (texture.width / 2) (texture.height / 2) dx) im)
          im).px p q c := rfl
  rw [hb, hpx p q c]
  beta_reduce
  rw [forLoop_single _ _ _ (p - x)]
  · rw [forLoop_single _ _ _ (q - y)]
    · have ep : p = x + (p - x) := by ring
      have eq : q = y + (q - y) := by ring
      by_cases hcov : Covered W H C x y texture p q c
      · rw [if_pos hcov]
        obtain ⟨h1, h2, h3, h4⟩ := hcov
        rw [if_pos h1, if_pos h2, if_pos ⟨ep, eq, h3, h4⟩]
      · rw [if_neg hcov]
        split_ifs with a b d
        · exact absurd ⟨a, b, d.2.2.1, d.2.2.2⟩ hcov
        · rfl
        · rfl
        · rfl
    · intro i hi v
      have : ¬ (p = x + (p - x) ∧ q = y + i ∧ (0 ≤ p ∧ p < W ∧ 0 ≤ q ∧ q < H)
          ∧ (0 ≤ c ∧ c < C)) := fun hh => hi (by omega)
      rw [if_neg this]
  · intro i hi v
    apply forLoop_id
    intro j s
    have : ¬ (p = x + i ∧ q = y + j ∧ (0 ≤ p ∧ p < W ∧ 0 ≤ q ∧ q < H)
        ∧ (0 ≤ c ∧ c < C)) := fun hh => hi (by omega)
    rw [if_neg this]

theorem Image.ext_fields {a b : Image} (hw : a.width = b.width) (hh : a.height = b.height)
    (hc : a.channels = b.channels) (hpx : ∀ p q c, a.px p q c = b.px p q c) : a = b := by
  cases a
  cases b
  simp only [Image.mk.injEq] at *
  exact ⟨hw, hh, hc, by funext p q c; exact hpx p q c⟩

/-- The sample `(p, q, c)` of the canvas after `brush`, in closed form. -/
theorem brush_px (canvas : Image) (x y : Int) (color : List ℚ) (texture : Image) (p q c : Int) :
    (brush canvas x y color texture).px p q c
      = if Covered canvas.width canvas.height canvas.channels x y texture p q c
        then blend color texture (texture.width / 2) (texture.height / 2) (p - x) (q - y) c
          (canvas.px p q c)
        else canvas.px p q c :=
  (brush_pointwise canvas.width canvas.height canvas.channels x y color texture
    canvas rfl rfl rfl).2.2.2 p q c

theorem brush_dims (canvas : Image) (x y : Int) (color : List ℚ) (texture : Image) :
    (brush canvas x y color texture).width = canvas.width ∧
    (brush canvas x y color texture).height = canvas.height ∧
    (brush canvas x y color texture).channels = canvas.channels :=
  let h := brush_pointwise canvas.width canvas.height canvas.channels x y color texture
    canvas rfl rfl rfl
  ⟨h.1, h.2.1, h.2.2.1⟩

/-! ## The compositor: C1 - C4 -/

/-- C1: after `brush(canvas, x, y, color, texture)` every canvas pixel `(p, q)` of
the footprint `x - w/2 <= p < x - w/2 + w`, `y - h/2 <= q < y - h/2 + h` that lies
inside the canvas holds, in every channel `c`, the value
`t * color[c] + (1 - t) * old(p, q, c)` with `t = texture(p - x + w/2, q - y + h/2, c)`. -/
theorem brush_blends_footprint (canvas : Image) (x y : Int) (color : List ℚ) (texture : Image)
    (p q c : Int)
    (_htex : canvas.channels ≤ texture.channels)
    (_hcol : canvas.channels ≤ (color.length : Int))
    (hp : x - texture.width / 2 ≤ p ∧ p < x - texture.width / 2 + texture.width)
    (hq : y - texture.height / 2 ≤ q ∧ q < y - texture.height / 2 + texture.height)
    (hin : 0 ≤ p ∧ p < canvas.width ∧ 0 ≤ q ∧ q < canvas.height)
    (hc : 0 ≤ c ∧ c < canvas.channels) :
    (brush canvas x y color texture).px p q c
      = texture.px (p - x + texture.width / 2) (q - y + texture.height / 2) c * colorAt color c
        + (1 - texture.px (p - x + texture.width / 2) (q - y + texture.height / 2) c)
          * canvas.px p q c := by
  have hcov : Covered canvas.width canvas.height canvas.channels x y texture p q c :=
    ⟨⟨by omega, by omega⟩, ⟨by omega, by omega⟩, hin, hc⟩
  rw [brush_px, if_pos hcov]
  rfl

theorem brush_blends_footprint_witness :
    (brush rampCanvas 0 0 [5] (flatTexture (1 / 2))).px 0 0 0
      = (flatTexture (1 / 2)).px (0 - 0 + (flatTexture (1 / 2)).width / 2)
            (0 - 0 + (flatTexture (1 / 2)).height / 2) 0 * colorAt [5] 0
        + (1 - (flatTexture (1 / 2)).px (0 - 0 + (flatTexture (1 / 2)).width / 2)
            (0 - 0 + (flatTexture (1 / 2)).height / 2) 0) * rampCanvas.px 0 0 0 :=
  brush_blends_footprint rampCanvas 0 0 [5] (flatTexture (1 / 2)) 0 0 0
    (by decide) (by decide) (by decide) (by decide) (by decide) (by decide)

/-- C2: `brush` keeps the width, the height and the channel count of the canvas,
and every sample that is not at once in the footprint of the texture centred at
`(x, y)`, inside the canvas (`0 <= p < width`, `0 <= q < height`) and in a channel
of the canvas keeps its value: nothing is written outside the canvas, and a stroke
overhanging an edge is clipped. -/
theorem brush_frame (canvas : Image) (x y : Int) (color : List ℚ) (texture : Image) :
    (brush canvas x y color texture).width = canvas.width ∧
    (brush canvas x y color texture).height = canvas.height ∧
    (brush canvas x y color texture).channels = canvas.channels ∧
    ∀ p q c : Int,
      ¬ ((x - texture.width / 2 ≤ p ∧ p < x - texture.width / 2 + texture.width) ∧
         (y - texture.height / 2 ≤ q ∧ q < y - texture.height / 2 + texture.height) ∧
         (0 ≤ p ∧ p < canvas.width ∧ 0 ≤ q ∧ q < canvas.height) ∧
         (0 ≤ c ∧ c < canvas.channels)) →
      (brush canvas x y color texture).px p q c = canvas.px p q c := by
  obtain ⟨h1, h2, h3⟩ := brush_dims canvas x y color texture
  refine ⟨h1, h2, h3, fun p q c hn => ?_⟩
  have hcov : ¬ Covered canvas.width canvas.height canvas.channels x y texture p q c := by
    rintro ⟨a, b, d, e⟩
    exact hn ⟨⟨by omega, by omega⟩, ⟨by omega, by omega⟩, d, e⟩
  rw [brush_px, if_neg hcov]

theorem brush_frame_witness :
    (brush rampCanvas (-1) 3 [5] (flatTexture 1)).px (-2) 2 0 = rampCanvas.px (-2) 2 0 ∧
    (brush rampCanvas (-1) 3 [5] (flatTexture 1)).px 2 2 0 = rampCanvas.px 2 2 0 :=
  ⟨(brush_frame rampCanvas (-1) 3 [5] (flatTexture 1)).2.2.2 (-2) 2 0 (by decide),
   (brush_frame rampCanvas (-1) 3 [5] (flatTexture 1)).2.2.2 2 2 0 (by decide)⟩

/-- C3: for a texture whose samples are all 1, `brush` sets every in-canvas pixel of
the covered footprint to `color[c]` in every channel `c`, whatever the canvas held. -/
theorem brush_opaque_texture (canvas : Image) (x y : Int) (color : List ℚ) (texture : Image)
    (p q c : Int)
    (hone : ∀ a b d : Int, 0 ≤ a ∧ a < texture.width → 0 ≤ b ∧ b < texture.height →
      0 ≤ d ∧ d < texture.channels → texture.px a b d = 1)
    (htex : canvas.channels ≤ texture.channels)
    (hp : x - texture.width / 2 ≤ p ∧ p < x - texture.width / 2 + texture.width)
    (hq : y - texture.height / 2 ≤ q ∧ q < y - texture.height / 2 + texture.height)
    (hin : 0 ≤ p ∧ p < canvas.width ∧ 0 ≤ q ∧ q < canvas.height)
    (hc : 0 ≤ c ∧ c < canvas.channels) :
    (brush canvas x y color texture).px p q c = colorAt color c := by
  have hcov : Covered canvas.width canvas.height canvas.channels x y texture p q c :=
    ⟨⟨by omega, by omega⟩, ⟨by omega, by omega⟩, hin, hc⟩
  rw [brush_px, if_pos hcov]
  unfold blend
  rw [hone _ _ _ ⟨by omega, by omega⟩ ⟨by omega, by omega⟩ ⟨hc.1, by omega⟩]
  ring

theorem brush_opaque_texture_witness :
    (brush rampCanvas 2 2 [5] (flatTexture 1)).px 1 2 0 = colorAt [5] 0 :=
  brush_opaque_texture rampCanvas 2 2 [5] (flatTexture 1) 1 2 0
    (fun _ _ _ _ _ _ => rfl) (by decide) (by decide) (by decide) (by decide) (by decide)

/-- C4: for a texture whose samples are all 0, `brush` leaves the whole canvas
unchanged, for every position `(x, y)` and every colour. -/
theorem brush_transparent_texture (canvas : Image) (x y : Int) (color : List ℚ)
    (texture : Image)
    (hzero : ∀ a b d : Int, 0 ≤ a ∧ a < texture.width → 0 ≤ b ∧ b < texture.height →
      0 ≤ d ∧ d < texture.channels → texture.px a b d = 0)
    (htex : canvas.channels ≤ texture.channels) :
    brush canvas x y color texture = canvas := by
  obtain ⟨h1, h2, h3⟩ := brush_dims canvas x y color texture
  refine Image.ext_fields h1 h2 h3 (fun p q c => ?_)
  rw [brush_px]
  split_ifs with hcov
  · obtain ⟨a, b, _, e⟩ := hcov
    unfold blend
    rw [hzero _ _ _ ⟨by omega, by omega⟩ ⟨by omega, by omega⟩ ⟨e.1, by omega⟩]
    ring
  · rfl

theorem brush_transparent_texture_witness :
    brush rampCanvas 1 1 [5] (flatTexture 0) = rampCanvas :=
  brush_transparent_texture rampCanvas 1 1 [5] (flatTexture 0)
    (fun _ _ _ _ _ _ => rfl) (by decide)

/-! ## The saturating sum: C5 -/

theorem addWeight_eq (v p_total : ℚ) : addWeight v p_total = p_total + satWeight v := by
  unfold addWeight satWeight
  split_ifs <;> simp

theorem forLoop_sum (n : Int) (g : Int → ℚ → ℚ) (f : Int → ℚ)
    (hg : ∀ i s, g i s = s + f i) (s : ℚ) :
    forLoop 0 n g s = s + ∑ k in Finset.range n.toNat, f (k : Int) := by
  unfold forLoop
  simp only [sub_zero, zero_add]
  induction n.toNat with
  | zero => simp
  | succ m ih =>
    rw [List.range_succ, List.map_append, List.foldl_append, ih, Finset.sum_range_succ]
    simp only [List.map_cons, List.map_nil, List.foldl_cons, List.foldl_nil, hg]
    ring

theorem totalWeight_eq_sum (importance : Image) :
    totalWeight importance
      = ∑ x in Finset.range importance.width.toNat,
          ∑ y in Finset.range importance.height.toNat,
            satWeight (importance.px (x : Int) (y : Int) 0) := by
  unfold totalWeight
  rw [forLoop_sum importance.width _
    (fun x => ∑ y in Finset.range importance.height.toNat,
      satWeight (importance.px x (y : Int) 0))]
  · simp
  · intro x s
    exact forLoop_sum importance.height _ (fun y => satWeight (importance.px x y 0))
      (fun y t => addWeight_eq _ _) s

theorem FloatVal.div_fin_of_ne (a b : ℚ) (hb : b ≠ 0) :
    FloatVal.div (.fin a) (.fin b) = .fin (a / b) := by
  simp [FloatVal.div, hb]

/-- C5: `p_total` is the sum over all pixels of the saturating weight of
`importance(x, y, 0)`, `p_accept` is `p_total / (width * height)`, and for a map
with one pixel at 5 and the rest 0, `p_total = 1` and `p_accept = 1 / (W * H)`. -/
theorem totalWeight_saturating_sum (importance : Image) :
    totalWeight importance
        = ∑ x in Finset.range importance.width.toNat,
            ∑ y in Finset.range importance.height.toNat,
              satWeight (importance.px (x : Int) (y : Int) 0) ∧
    acceptanceRate importance
        = FloatVal.div (.fin (totalWeight importance))
            (.fin ((importance.width * importance.height : Int) : ℚ)) ∧
    (importance.width * importance.height ≠ 0 →
      acceptanceRate importance
        = .fin (totalWeight importance
            / ((importance.width * importance.height : Int) : ℚ))) ∧
    ∀ x0 y0 : Int, (0 ≤ x0 ∧ x0 < importance.width) → (0 ≤ y0 ∧ y0 < importance.height) →
      importance.px x0 y0 0 = 5 →
      (∀ x y : Int, (0 ≤ x ∧ x < importance.width) → (0 ≤ y ∧ y < importance.height) →
        ¬ (x = x0 ∧ y = y0) → importance.px x y 0 = 0) →
      totalWeight importance = 1 ∧
      acceptanceRate importance
        = .fin (1 / ((importance.width * importance.height : Int) : ℚ)) := by
  refine ⟨totalWeight_eq_sum importance, rfl, fun hne => ?_, ?_⟩
  · exact FloatVal.div_fin_of_ne _ _ (by exact_mod_cast hne)
  · intro x0 y0 hx hy h5 hrest
    have htot : totalWeight importance = 1 := by
      rw [totalWeight_eq_sum, Finset.sum_eq_single x0.toNat]
      · rw [Finset.sum_eq_single y0.toNat]
        · have ex : ((x0.toNat : Nat) : Int) = x0 := Int.toNat_of_nonneg hx.1
          have ey : ((y0.toNat : Nat) : Int) = y0 := Int.toNat_of_nonneg hy.1
          rw [ex, ey, h5]
          norm_num [satWeight]
        · intro b hb hne
          rw [Finset.mem_range] at hb
          rw [hrest _ _ ⟨by omega, by omega⟩ ⟨by omega, by omega⟩ (by omega)]
          norm_num [satWeight]
        · intro hno
          exact absurd (Finset.mem_range.2 (by omega)) hno
      · intro a ha hne
        rw [Finset.mem_range] at ha
        apply Finset.sum_eq_zero
        intro b hb
        rw [Finset.mem_range] at hb
        rw [hrest _ _ ⟨by omega, by omega⟩ ⟨by omega, by omega⟩ (by omega)]
        norm_num [satWeight]
      · intro hno
        exact absurd (Finset.mem_range.2 (by omega)) hno
    refine ⟨htot, ?_⟩
    have hne : ((importance.width * importance.height : Int) : ℚ) ≠ 0 := by
      have h1 : 0 < importance.width := by omega
      have h2 : 0 < importance.height := by omega
      have : importance.width * importance.height ≠ 0 := (Int.mul_pos h1 h2).ne.symm
      exact_mod_cast this
    unfold acceptanceRate
    rw [htot, FloatVal.div_fin_of_ne _ _ hne]

theorem totalWeight_saturating_sum_witness :
    totalWeight spikeMap = 1 ∧
    acceptanceRate spikeMap = .fin (1 / ((spikeMap.width * spikeMap.height : Int) : ℚ)) :=
  (totalWeight_saturating_sum spikeMap).2.2.2 1 0 (by decide) (by decide)
    (by simp [spikeMap])
    (by
      intro x y _ _ hne
      simp only [spikeMap]
      rw [if_neg hne])

/-! ## The main loop: C8, C9 -/

theorem boundedLoop_invariant {σ : Type} (P : σ → Prop) (cond : σ → Bool) (body : σ → Option σ)
    (hstep : ∀ s t, P s → cond s = true → body s = some t → P t) :
    ∀ (fuel : Nat) (s : σ), P s →
      ∀ t, (boundedLoop cond body fuel s).reached = some t → P t := by
  intro fuel
  induction fuel with
  | zero =>
    intro s hs t ht
    unfold boundedLoop at ht
    split_ifs at ht <;> simp only [Outcome.reached, Option.some.injEq] at ht <;> exact ht ▸ hs
  | succ n ih =>
    intro s hs t ht
    unfold boundedLoop at ht
    split_ifs at ht with hc
    · cases hb : body s with
      | none => simp [hb, Outcome.reached] at ht
      | some s1 =>
        simp only [hb] at ht
        exact ih s1 (hstep s s1 hs hc hb) t ht
    · simp only [Outcome.reached, Option.some.injEq] at ht
      exact ht ▸ hs

theorem boundedLoop_running {σ : Type} (P : Nat → σ → Prop) (cond : σ → Bool)
    (body : σ → Option σ) (hcond : ∀ k s, P k s → cond s = true)
    (hstep : ∀ k s, P k s → ∃ t, body s = some t ∧ P (k + 1) t) :
    ∀ (fuel k : Nat) (s : σ), P k s →
      ∃ t, boundedLoop cond body fuel s = .running t ∧ P (k + fuel) t := by
  intro fuel
  induction fuel with
  | zero =>
    intro k s hs
    exact ⟨s, by simp [boundedLoop, hcond k s hs], hs⟩
  | succ n ih =>
    intro k s hs
    obtain ⟨s1, hb, hs1⟩ := hstep k s hs
    obtain ⟨t, ht, hPt⟩ := ih (k + 1) s1 hs1
    refine ⟨t, ?_, ?_⟩
    · rw [boundedLoop, if_pos (hcond k s hs)]
      simp only [hb]
      exact ht
    · have e : k + (n + 1) = k + 1 + n := by omega
      rw [e]
      exact hPt

theorem accept_pos {RAND_MAX r : Nat} {v : ℚ} (h : accept RAND_MAX r v = true) : 0 < v := by
  unfold accept at h
  rw [decide_eq_true_eq] at h
  have h0 : (0 : ℚ) ≤ (((r / RAND_MAX : Nat) : Int) : ℚ) := by positivity
  linarith

theorem accept_of_nonpos (RAND_MAX r : Nat) (v : ℚ) (hv : v ≤ 0) :
    accept RAND_MAX r v = false := by
  cases h : accept RAND_MAX r v with
  | false => rfl
  | true => exact absurd (accept_pos h) (not_lt.2 hv)

theorem importanceStep_positive (RAND_MAX : Nat) (rand : Nat → Nat)
    (im importance texture : Image) (noise : ℚ) (st : SamplerState)
    (h : StrokesPositive importance st) :
    StrokesPositive importance (importanceStep RAND_MAX rand im importance texture noise st) := by
  unfold importanceStep
  dsimp only
  split_ifs with ha
  · intro s hs
    simp only [List.mem_append, List.mem_singleton] at hs
    rcases hs with hs | rfl
    · exact h s hs
    · exact accept_pos ha
  · exact h

theorem orientedStep_positive (RAND_MAX : Nat) (rand : Nat → Nat)
    (im importance : Image) (rotated : List Image) (angles : Image) (noise : ℚ)
    (st t : SamplerState) (h : StrokesPositive importance st)
    (ht : orientedStep RAND_MAX rand im importance rotated angles noise st = some t) :
    StrokesPositive importance t := by
  unfold orientedStep at ht
  dsimp only at ht
  split_ifs at ht with ha
  · split at ht
    · simp only [Option.some.injEq] at ht
      subst ht
      intro s hs
      simp only [List.mem_append, List.mem_singleton] at hs
      rcases hs with hs | rfl
      · exact h s hs
      · exact accept_pos ha
    · simp at ht
  · simp only [Option.some.injEq] at ht
    subst ht
    exact h

/-- C8: a candidate whose importance value is 0 or negative is rejected whatever
the acceptance draw, and at every point of every run of either sampler (returned
or still running) each stroke composited so far is centred on a pixel whose
importance is positive. -/
theorem no_stroke_on_nonpositive_importance (L : Lib) (rand : Nat → Nat) (fuel : Nat)
    (im importance out tensor texture : Image) (size N : Int) (noise : ℚ) (nAngles : Int) :
    (∀ (r : Nat) (v : ℚ), v ≤ 0 → accept L.RAND_MAX r v = false) ∧
    (∀ st, (singleScalePaintImportance L rand fuel im importance out texture size N
          noise).reached = some st →
        ∀ s ∈ st.strokes, 0 < importance.px s.x s.y 0) ∧
    (∀ st, (singleScaleOrientedPaint L rand fuel im importance out tensor texture size N
          noise nAngles).reached = some st →
        ∀ s ∈ st.strokes, 0 < importance.px s.x s.y 0) := by
  refine ⟨fun r v hv => accept_of_nonpos _ r v hv, ?_, ?_⟩
  · intro st hst
    refine boundedLoop_invariant (StrokesPositive importance) _ _ ?_ fuel ⟨out, 0, 0, []⟩ ?_ st hst
    · intro s t hs _ hb
      simp only [Option.some.injEq] at hb
      subst hb
      exact importanceStep_positive _ _ _ _ _ _ _ hs
    · intro s hs
      simp at hs
  · intro st hst
    refine boundedLoop_invariant (StrokesPositive importance) _ _ ?_ fuel ⟨out, 0, 0, []⟩ ?_ st hst
    · intro s t hs _ hb
      exact orientedStep_positive _ _ _ _ _ _ _ _ _ hs hb
    · intro s hs
      simp at hs

theorem no_stroke_on_nonpositive_importance_witness :
    accept axisLib.RAND_MAX 7 0 = false ∧
    ∀ st, (singleScalePaintImportance axisLib (fun _ => 7) 3 (constImage 2 2 3 1) spikeMap
          (constImage 2 2 3 0) (flatTexture 1) 2 1 0).reached = some st →
        ∀ s ∈ st.strokes, 0 < spikeMap.px s.x s.y 0 :=
  ⟨(no_stroke_on_nonpositive_importance axisLib (fun _ => 7) 3 (constImage 2 2 3 1) spikeMap
      (constImage 2 2 3 0) (constImage 2 2 3 0) (flatTexture 1) 2 1 0 4).1 7 0 (le_refl 0),
   (no_stroke_on_nonpositive_importance axisLib (fun _ => 7) 3 (constImage 2 2 3 1) spikeMap
      (constImage 2 2 3 0) (constImage 2 2 3 0) (flatTexture 1) 2 1 0 4).2.1⟩

theorem totalWeight_zero (importance : Image)
    (hz : ∀ x y : Int, (0 ≤ x ∧ x < importance.width) → (0 ≤ y ∧ y < importance.height) →
      importance.px x y 0 ≤ 0) :
    totalWeight importance = 0 := by
  rw [totalWeight_eq_sum]
  apply Finset.sum_eq_zero
  intro a ha
  apply Finset.sum_eq_zero
  intro b hb
  rw [Finset.mem_range] at ha hb
  have h := hz a b ⟨by omega, by omega⟩ ⟨by omega, by omega⟩
  unfold satWeight
  rw [if_neg (fun hh => absurd hh.1 (not_lt.2 h)), if_neg (fun hh => by linarith)]

theorem loopCond_zero_rate (N : Int) (hN : 0 < N) (st : SamplerState) :
    loopCond N (.fin 0) st = true := by
  have : (0 : ℚ) < (N : ℚ) := by exact_mod_cast hN
  simp [loopCond, FloatVal.div, FloatVal.lt, this]

theorem candidate_in_bounds (rand : Nat → Nat) (out : Image) (c : Nat)
    (hW : 0 < out.width) (hH : 0 < out.height) :
    (0 ≤ (candidate rand out c).1 ∧ (candidate rand out c).1 < out.width) ∧
    (0 ≤ (candidate rand out c).2 ∧ (candidate rand out c).2 < out.height) := by
  unfold candidate
  exact ⟨⟨Int.emod_nonneg _ (ne_of_gt hW), Int.emod_lt_of_pos _ hW⟩,
    ⟨Int.emod_nonneg _ (ne_of_gt hH), Int.emod_lt_of_pos _ hH⟩⟩

/-- C9: for an importance map with no positive value and `N > 0` the acceptance
rate is 0, the loop test `i < N / p_accept` holds at every `i`, and neither
sampler returns: after any number `fuel` of iterations the loop is still
running, with the canvas unchanged and no stroke placed. -/
theorem zero_rate_loop_never_returns (L : Lib) (rand : Nat → Nat) (fuel : Nat)
    (im importance out tensor texture : Image) (size N : Int) (noise : ℚ) (nAngles : Int)
    (hW : 0 < importance.width) (hH : 0 < importance.height)
    (hout : out.width = importance.width ∧ out.height = importance.height)
    (hz : ∀ x y : Int, (0 ≤ x ∧ x < importance.width) → (0 ≤ y ∧ y < importance.height) →
      importance.px x y 0 ≤ 0)
    (hN : 0 < N) :
    acceptanceRate importance = .fin 0 ∧
    (∃ st, singleScalePaintImportance L rand fuel im importance out texture size N noise
        = .running st ∧ st.out = out ∧ st.strokes = [] ∧ st.i = (fuel : Int)) ∧
    (∃ st, singleScaleOrientedPaint L rand fuel im importance out tensor texture size N noise
        nAngles = .running st ∧ st.out = out ∧ st.strokes = [] ∧ st.i = (fuel : Int)) := by
  have hrate : acceptanceRate importance = .fin 0 := by
    have hne : ((importance.width * importance.height : Int) : ℚ) ≠ 0 := by
      have : importance.width * importance.height ≠ 0 := (Int.mul_pos hW hH).ne.symm
      exact_mod_cast this
    unfold acceptanceRate
    rw [totalWeight_zero importance hz, FloatVal.div_fin_of_ne _ _ hne, zero_div]
  have hrej : ∀ st : SamplerState, st.out = out →
      accept L.RAND_MAX (rand (st.cursor + 2))
        (importance.px (candidate rand st.out st.cursor).1
          (candidate rand st.out st.cursor).2 0) = false := by
    intro st hst
    apply accept_of_nonpos
    have hb := candidate_in_bounds rand st.out st.cursor
      (by rw [hst, hout.1]; exact hW) (by rw [hst, hout.2]; exact hH)
    rw [hst, hout.1, hout.2] at hb
    rw [hst]
    exact hz _ _ hb.1 hb.2
  refine ⟨hrate, ?_, ?_⟩
  · unfold singleScalePaintImportance
    dsimp only
    rw [hrate]
    obtain ⟨t, ht, h1, h2, h3⟩ := boundedLoop_running
      (fun k st => st.out = out ∧ st.strokes = [] ∧ st.i = (k : Int)) (loopCond N (.fin 0))
      (fun st => some (importanceStep L.RAND_MAX rand im importance
        (L.scaleLin texture (scaleFactor texture size)) noise st))
      (fun k s _ => loopCond_zero_rate N hN s)
      (fun k s hs => ⟨_, rfl, by
        unfold importanceStep
        dsimp only
        rw [hrej s hs.1]
        simp only [Bool.false_eq_true, if_false]
        refine ⟨hs.1, hs.2.1, ?_⟩
        rw [hs.2.2]
        push_cast
        rfl⟩)
      fuel 0 ⟨out, 0, 0, []⟩ ⟨rfl, rfl, by simp⟩
    refine ⟨t, ht, h1, h2, ?_⟩
    rw [h3]
    simp
  · unfold singleScaleOrientedPaint
    dsimp only
    rw [hrate]
    obtain ⟨t, ht, h1, h2, h3⟩ := boundedLoop_running
      (fun k st => st.out = out ∧ st.strokes = [] ∧ st.i = (k : Int)) (loopCond N (.fin 0))
      (orientedStep L.RAND_MAX rand im importance
        (rotateBrushes L (L.scaleLin texture (scaleFactor texture size)) nAngles)
        (angleTextures L im tensor nAngles) noise)
      (fun k s _ => loopCond_zero_rate N hN s)
      (fun k s hs => ⟨{ s with cursor := s.cursor + 3, i := s.i + 1 }, by
        unfold orientedStep
        dsimp only
        rw [hrej s hs.1]
        simp, by
        refine ⟨hs.1, hs.2.1, ?_⟩
        dsimp only
        rw [hs.2.2]
        push_cast
        rfl⟩)
      fuel 0 ⟨out, 0, 0, []⟩ ⟨rfl, rfl, by simp⟩
    refine ⟨t, ht, h1, h2, ?_⟩
    rw [h3]
    simp

theorem zero_rate_loop_never_returns_witness :
    ∃ st, singleScalePaintImportance axisLib (fun _ => 0) 1000 (constImage 2 2 3 1)
        (constImage 2 2 1 0) (constImage 2 2 3 1) (flatTexture 1) 2 1 0
        = .running st ∧ st.out = constImage 2 2 3 1 ∧ st.strokes = [] ∧ st.i = 1000 :=
  (zero_rate_loop_never_returns axisLib (fun _ => 0) 1000 (constImage 2 2 3 1)
    (constImage 2 2 1 0) (constImage 2 2 3 1) rowTensor (flatTexture 1) 2 1 0 4
    (by decide) (by decide) ⟨rfl, rfl⟩ (fun _ _ _ _ => le_refl 0) (by decide)).2.1

/-! ## The acceptance test: C6, C7 -/

theorem totalWeight_ones (importance : Image)
    (hone : ∀ x y : Int, (0 ≤ x ∧ x < importance.width) → (0 ≤ y ∧ y < importance.height) →
      importance.px x y 0 = 1) :
    totalWeight importance = (importance.width.toNat : ℚ) * (importance.height.toNat : ℚ) := by
  rw [totalWeight_eq_sum]
  have hin : ∀ a ∈ Finset.range importance.width.toNat,
      ∑ b in Finset.range importance.height.toNat, satWeight (importance.px (a : Int) (b : Int) 0)
        = (importance.height.toNat : ℚ) := by
    intro a ha
    rw [Finset.mem_range] at ha
    have : ∀ b ∈ Finset.range importance.height.toNat,
        satWeight (importance.px (a : Int) (b : Int) 0) = 1 := by
      intro b hb
      rw [Finset.mem_range] at hb
      rw [hone a b ⟨by omega, by omega⟩ ⟨by omega, by omega⟩]
      norm_num [satWeight]
    rw [Finset.sum_congr rfl this]
    simp
  rw [Finset.sum_congr rfl hin]
  simp

theorem acceptanceRate_ones (importance : Image)
    (hW : 0 < importance.width) (hH : 0 < importance.height)
    (hone : ∀ x y : Int, (0 ≤ x ∧ x < importance.width) → (0 ≤ y ∧ y < importance.height) →
      importance.px x y 0 = 1) :
    acceptanceRate importance = .fin 1 := by
  have hne : ((importance.width * importance.height : Int) : ℚ) ≠ 0 := by
    have : importance.width * importance.height ≠ 0 := (Int.mul_pos hW hH).ne.symm
    exact_mod_cast this
  have hcast : (importance.width.toNat : ℚ) * (importance.height.toNat : ℚ)
      = ((importance.width * importance.height : Int) : ℚ) := by
    have e1 : ((importance.width.toNat : Nat) : Int) = importance.width :=
      Int.toNat_of_nonneg hW.le
    have e2 : ((importance.height.toNat : Nat) : Int) = importance.height :=
      Int.toNat_of_nonneg hH.le
    have c1 : (importance.width.toNat : ℚ) = ((importance.width : Int) : ℚ) := by
      rw [← Int.cast_natCast, e1]
    have c2 : (importance.height.toNat : ℚ) = ((importance.height : Int) : ℚ) := by
      rw [← Int.cast_natCast, e2]
    rw [c1, c2, Int.cast_mul]
  unfold acceptanceRate
  rw [totalWeight_ones importance hone, hcast, FloatVal.div_fin_of_ne _ _ hne, div_self hne]

theorem loopCond_unit_rate (N : Int) (st : SamplerState) :
    loopCond N (.fin 1) st = decide (st.i < N) := by
  simp [loopCond, FloatVal.div, FloatVal.lt]

theorem boundedLoop_returned {σ : Type} (P : Nat → σ → Prop) (cond : σ → Bool)
    (body : σ → Option σ) (n : Nat)
    (hcond : ∀ k s, P k s → (cond s = true ↔ k < n))
    (hstep : ∀ k s, P k s → k < n → ∃ t, body s = some t ∧ P (k + 1) t) :
    ∀ (d fuel k : Nat) (s : σ), k + d = n → d ≤ fuel → P k s →
      ∃ t, boundedLoop cond body fuel s = .returned t ∧ P n t := by
  intro d
  induction d with
  | zero =>
    intro fuel k s hk _ hs
    have hk1 : k = n := by omega
    subst hk1
    have hc : ¬ (cond s = true) := fun h => absurd ((hcond k s hs).1 h) (lt_irrefl _)
    refine ⟨s, ?_, hs⟩
    cases fuel with
    | zero => rw [boundedLoop, if_neg hc]
    | succ m => rw [boundedLoop, if_neg hc]
  | succ d ih =>
    intro fuel k s hk hf hs
    have hlt : k < n := by omega
    obtain ⟨s1, hb, hs1⟩ := hstep k s hs hlt
    cases fuel with
    | zero => omega
    | succ m =>
      obtain ⟨t, ht, hPt⟩ := ih m (k + 1) s1 (by omega) (by omega) hs1
      refine ⟨t, ?_, hPt⟩
      rw [boundedLoop, if_pos ((hcond k s hs).2 hlt)]
      simp only [hb]
      exact ht

theorem accept_max_draw (RAND_MAX : Nat) (hR : 0 < RAND_MAX) (v : ℚ) :
    accept RAND_MAX RAND_MAX v = decide (1 < v) := by
  unfold accept
  rw [Nat.div_self hR]
  simp

theorem accept_below_max (RAND_MAX r : Nat) (hr : r < RAND_MAX) (v : ℚ) :
    accept RAND_MAX r v = decide (0 < v) := by
  unfold accept
  rw [Nat.div_eq_of_lt hr]
  simp

/-- C6 (the code departs from it): for an importance map that is uniformly 1 the
acceptance rate is 1 and both samplers return after exactly `N` iterations, but
an iteration whose acceptance draw is `RAND_MAX` is rejected (`1 < 1` fails): when
every acceptance draw is `RAND_MAX` no stroke at all is placed and the canvas is
returned unchanged. -/
theorem uniform_map_rejects_max_draws (L : Lib) (rand : Nat → Nat) (fuel : Nat)
    (im importance out tensor texture : Image) (size N : Int) (noise : ℚ) (nAngles : Int)
    (hR : 0 < L.RAND_MAX)
    (hW : 0 < importance.width) (hH : 0 < importance.height)
    (hout : out.width = importance.width ∧ out.height = importance.height)
    (hone : ∀ x y : Int, (0 ≤ x ∧ x < importance.width) → (0 ≤ y ∧ y < importance.height) →
      importance.px x y 0 = 1)
    (hN : 0 ≤ N) (hfuel : N.toNat ≤ fuel)
    (hdraw : ∀ k : Nat, rand (3 * k + 2) = L.RAND_MAX) :
    acceptanceRate importance = .fin 1 ∧
    (∃ st, singleScalePaintImportance L rand fuel im importance out texture size N noise
        = .returned st ∧ st.i = N ∧ st.strokes = [] ∧ st.out = out) ∧
    (∃ st, singleScaleOrientedPaint L rand fuel im importance out tensor texture size N noise
        nAngles = .returned st ∧ st.i = N ∧ st.strokes = [] ∧ st.out = out) := by
  have hrate := acceptanceRate_ones importance hW hH hone
  have hrej : ∀ (k : Nat) (st : SamplerState), st.out = out → st.cursor = 3 * k →
      accept L.RAND_MAX (rand (st.cursor + 2))
        (importance.px (candidate rand st.out st.cursor).1
          (candidate rand st.out st.cursor).2 0) = false := by
    intro k st hst hcur
    have hb := candidate_in_bounds rand st.out st.cursor
      (by rw [hst, hout.1]; exact hW) (by rw [hst, hout.2]; exact hH)
    rw [hst, hout.1, hout.2] at hb
    rw [hst]
    rw [hone _ _ hb.1 hb.2, hcur, hdraw k, accept_max_draw _ hR]
    simp
  have hcond : ∀ (k : Nat) (s : SamplerState),
      (s.out = out ∧ s.strokes = [] ∧ s.i = (k : Int) ∧ s.cursor = 3 * k) →
      (loopCond N (.fin 1) s = true ↔ k < N.toNat) := by
    intro k s hs
    rw [loopCond_unit_rate, decide_eq_true_eq, hs.2.2.1]
    omega
  refine ⟨hrate, ?_, ?_⟩
  · unfold singleScalePaintImportance
    dsimp only
    rw [hrate]
    obtain ⟨t, ht, h1, h2, h3, _⟩ := boundedLoop_returned
      (fun k st => st.out = out ∧ st.strokes = [] ∧ st.i = (k : Int) ∧ st.cursor = 3 * k)
      (loopCond N (.fin 1))
      (fun st => some (importanceStep L.RAND_MAX rand im importance
        (L.scaleLin texture (scaleFactor texture size)) noise st))
      N.toNat hcond
      (fun k s hs _ => ⟨_, rfl, by
        unfold importanceStep
        dsimp only
        rw [hrej k s hs.1 hs.2.2.2]
        simp only [Bool.false_eq_true, if_false]
        refine ⟨hs.1, hs.2.1, ?_, ?_⟩
        · rw [hs.2.2.1]
          push_cast
          rfl
        · rw [hs.2.2.2]
          ring⟩)
      N.toNat fuel 0 ⟨out, 0, 0, []⟩ (by omega) hfuel ⟨rfl, rfl, by simp, by simp⟩
    refine ⟨t, ht, ?_, h2, h1⟩
    rw [h3]
    exact Int.toNat_of_nonneg hN
  · unfold singleScaleOrientedPaint
    dsimp only
    rw [hrate]
    obtain ⟨t, ht, h1, h2, h3, _⟩ := boundedLoop_returned
      (fun k st => st.out = out ∧ st.strokes = [] ∧ st.i = (k : Int) ∧ st.cursor = 3 * k)
      (loopCond N (.fin 1))
      (orientedStep L.RAND_MAX rand im importance
        (rotateBrushes L (L.scaleLin texture (scaleFactor texture size)) nAngles)
        (angleTextures L im tensor nAngles) noise)
      N.toNat hcond
      (fun k s hs _ => ⟨{ s with cursor := s.cursor + 3, i := s.i + 1 }, by
        unfold orientedStep
        dsimp only
        rw [hrej k s hs.1 hs.2.2.2]
        simp, by
        refine ⟨hs.1, hs.2.1, ?_, ?_⟩
        · dsimp only
          rw [hs.2.2.1]
          push_cast
          rfl
        · dsimp only
          rw [hs.2.2.2]
          ring⟩)
      N.toNat fuel 0 ⟨out, 0, 0, []⟩ (by omega) hfuel ⟨rfl, rfl, by simp, by simp⟩
    refine ⟨t, ht, ?_, h2, h1⟩
    rw [h3]
    exact Int.toNat_of_nonneg hN

theorem uniform_map_rejects_max_draws_witness :
    ∃ st, singleScalePaintImportance axisLib (fun _ => 2147483647) 5 (constImage 2 2 3 1)
        (constImage 2 2 1 1) (constImage 2 2 3 0) (flatTexture 1) 2 3 0
        = .returned st ∧ st.i = 3 ∧ st.strokes = [] ∧ st.out = constImage 2 2 3 0 :=
  (uniform_map_rejects_max_draws axisLib (fun _ => 2147483647) 5 (constImage 2 2 3 1)
    (constImage 2 2 1 1) (constImage 2 2 3 0) rowTensor (flatTexture 1) 2 3 0 4
    (by decide) (by decide) (by decide) ⟨rfl, rfl⟩ (fun _ _ _ _ => rfl) (by decide)
    (by decide) (fun _ => rfl)).2.1

/-- C7 (the code departs from it): the acceptance test divides two `int`s, so the
draw `r = 1610612735` (about `0.75 * RAND_MAX`) is accepted against the importance
`1/2` although `r / RAND_MAX < 1/2` is false. -/
theorem accept_uses_integer_quotient :
    accept 2147483647 1610612735 (1 / 2) = true ∧
    ¬ ((1610612735 : ℚ) / 2147483647 < 1 / 2) := by
  refine ⟨?_, by norm_num⟩
  rw [accept_below_max _ _ (by norm_num)]
  norm_num

/-! ## The orientation bucket: C10 -/

theorem orientationUnit_zero : orientationUnit 0 = 1 := by
  norm_num [orientationUnit, pi]

theorem rotateBrushes_length (L : Lib) (im : Image) (nAngles : Int) :
    (rotateBrushes L im nAngles).length = nAngles.toNat := by
  unfold rotateBrushes forLoop
  simp only [sub_zero, zero_add]
  induction nAngles.toNat with
  | zero => simp
  | succ m ih =>
    rw [List.range_succ, List.map_append, List.foldl_append]
    simp only [List.map_cons, List.map_nil, List.foldl_cons, List.foldl_nil,
      List.length_append, List.length_singleton, ih]

theorem textureAt_length (rotated : List Image) (n : Int) (h : rotated.length = n.toNat) :
    textureAt rotated (n : ℚ) = none := by
  unfold textureAt
  rw [Int.floor_intCast]
  split_ifs
  · rw [List.get?_eq_none]
    omega
  · rfl

theorem set_pointwise (W H C x y z : Int) (v : ℚ) :
    Pointwise W H C (fun a => a.set x y z v)
      (fun p q c old => if p = x ∧ q = y ∧ c = z then v else old) := by
  intro im hW hH hC
  exact ⟨hW, hH, hC, fun p q c => rfl⟩

/-- The image `angle_textures` holds the bucket of each pixel of `im`. -/
theorem angleTextures_px (L : Lib) (im tensor : Image) (nAngles : Int) (p q : Int)
    (hp : 0 ≤ p ∧ p < im.width) (hq : 0 ≤ q ∧ q < im.height) :
    (angleTextures L im tensor nAngles).px p q 0
      = (orientationBucket L tensor nAngles p q : ℚ) := by
  have hrow : ∀ x, Pointwise im.width im.height 1
      (fun a => forLoop 0 im.height
        (fun y a => a.set x y 0 (orientationBucket L tensor nAngles x y : ℚ)) a) _ :=
    fun x => Pointwise.forLoop
      (fun y => set_pointwise im.width im.height 1 x y 0
        (orientationBucket L tensor nAngles x y : ℚ)) _ _
  obtain ⟨-, -, -, hpx⟩ := Pointwise.forLoop hrow 0 im.width
    (Image.zeros im.width im.height 1) rfl rfl rfl
  have ha : (angleTextures L im tensor nAngles).px p q 0
      = (forLoop 0 im.width
          (fun x a => forLoop 0 im.height
            (fun y a => a.set x y 0 (orientationBucket L tensor nAngles x y : ℚ)) a)
          (Image.zeros im.width im.height 1)).px p q 0 := rfl
  rw [ha, hpx p q 0]
  beta_reduce
  rw [forLoop_single _ _ _ p, if_pos hp, forLoop_single _ _ _ q, if_pos hq]
  · simp
  · intro i hi v
    have : ¬ (p = p ∧ q = i ∧ (0 : Int) = 0) := fun hh => hi hh.2.1.symm
    rw [if_neg this]
  · intro i hi v
    apply forLoop_id
    intro j t
    have : ¬ (p = i ∧ q = j ∧ (0 : Int) = 0) := fun hh => hi hh.1.symm
    rw [if_neg this]

theorem orientationBucket_of_zero_angle (L : Lib) (tensor : Image) (nAngles x y : Int)
    (h0 : L.atan2
        (selectEvector (L.solver (tensor.px x y 0) (tensor.px x y 1) (tensor.px x y 1)
          (tensor.px x y 2))).2
        (selectEvector (L.solver (tensor.px x y 0) (tensor.px x y 1) (tensor.px x y 1)
          (tensor.px x y 2))).1 = 0) :
    orientationBucket L tensor nAngles x y = nAngles := by
  unfold orientationBucket
  dsimp only
  rw [h0, orientationUnit_zero, one_mul, Int.floor_intCast]

/-- C10 (the code departs from it): when the `atan2` angle of the selected
eigenvector is 0 the orientation value is exactly 1 and the bucket stored for the
pixel is `nAngles` itself, which is not below `nAngles`: the code has no clamp, and
`rotated_textures[bucket]` is then outside the `nAngles` rotated textures. -/
theorem orientation_bucket_reaches_nAngles (L : Lib) (tensor texture : Image)
    (nAngles x y : Int)
    (h0 : L.atan2
        (selectEvector (L.solver (tensor.px x y 0) (tensor.px x y 1) (tensor.px x y 1)
          (tensor.px x y 2))).2
        (selectEvector (L.solver (tensor.px x y 0) (tensor.px x y 1) (tensor.px x y 1)
          (tensor.px x y 2))).1 = 0) :
    orientationBucket L tensor nAngles x y = nAngles ∧
    ¬ (orientationBucket L tensor nAngles x y < nAngles) ∧
    textureAt (rotateBrushes L texture nAngles)
      ((orientationBucket L tensor nAngles x y : Int) : ℚ) = none := by
  have hb : orientationBucket L tensor nAngles x y = nAngles :=
    orientationBucket_of_zero_angle L tensor nAngles x y h0
  refine ⟨hb, ?_, ?_⟩
  · rw [hb]
    exact lt_irrefl _
  · rw [hb]
    exact textureAt_length _ _ (rotateBrushes_length L texture nAngles)

theorem orientation_bucket_reaches_nAngles_witness :
    orientationBucket axisLib rowTensor 4 0 0 = 4 ∧
    ¬ (orientationBucket axisLib rowTensor 4 0 0 < 4) ∧
    textureAt (rotateBrushes axisLib (flatTexture 1) 4)
      ((orientationBucket axisLib rowTensor 4 0 0 : Int) : ℚ) = none :=
  orientation_bucket_reaches_nAngles axisLib rowTensor (flatTexture 1) 4 0 0
    (by simp [axisLib, rowTensor, selectEvector])

/-- One call of the oriented sampler on a 1 x 1 image whose tensor is
`Ixx = 0, Iyy = 1`: the only candidate is accepted and the texture lookup
`rotated_textures[4]` falls outside the 4 rotated textures. -/
theorem oriented_paint_faults_on_row_tensor :
    singleScaleOrientedPaint axisLib (fun _ => 0) 1 (constImage 1 1 3 0) (constImage 1 1 1 1)
      (constImage 1 1 3 0) rowTensor (flatTexture 1) 2 1 0 4 = .fault := by
  have hrate : acceptanceRate (constImage 1 1 1 1) = .fin 1 :=
    acceptanceRate_ones _ (by decide) (by decide) (fun _ _ _ _ => rfl)
  have hbucket : orientationBucket axisLib rowTensor 4 0 0 = 4 :=
    orientationBucket_of_zero_angle axisLib rowTensor 4 0 0
      (by simp [axisLib, rowTensor, selectEvector])
  have hlookup : textureAt
      (rotateBrushes axisLib (axisLib.scaleLin (flatTexture 1) (scaleFactor (flatTexture 1) 2)) 4)
      ((4 : Int) : ℚ) = none :=
    textureAt_length _ _ (rotateBrushes_length _ _ _)
  have hpx := angleTextures_px axisLib (constImage 1 1 3 0) rowTensor 4 0 0
    (by decide) (by decide)
  have hstep : orientedStep axisLib.RAND_MAX (fun _ => 0) (constImage 1 1 3 0)
      (constImage 1 1 1 1)
      (rotateBrushes axisLib (axisLib.scaleLin (flatTexture 1) (scaleFactor (flatTexture 1) 2)) 4)
      (angleTextures axisLib (constImage 1 1 3 0) rowTensor 4) 0
      ⟨constImage 1 1 3 0, 0, 0, []⟩ = none := by
    have hc : candidate (fun _ => 0) (constImage 1 1 3 0) 0 = (0, 0) := by
      simp [candidate, constImage]
    have hacc : accept axisLib.RAND_MAX 0 ((constImage 1 1 1 1).px 0 0 0) = true := by
      rw [accept_below_max _ _ (by decide)]
      simp [constImage]
    unfold orientedStep
    dsimp only
    rw [hc]
    dsimp only
    rw [hacc, if_pos rfl, hpx, hbucket, hlookup]
  unfold singleScaleOrientedPaint
  dsimp only
  rw [hrate, boundedLoop, if_pos (by rw [loopCond_unit_rate]; simp), hstep]

/-! ## Orientation values: C15, C16, C20 -/

theorem testAngleValue_eq (L : Lib) (tensor : Image) (x y : Int) :
    testAngleValue L tensor x y
      = 1 - normalizedAngle (L.atan2
          (selectEvector (L.solver (tensor.px x y 0) (tensor.px x y 1) (tensor.px x y 1)
            (tensor.px x y 2))).2
          (selectEvector (L.solver (tensor.px x y 0) (tensor.px x y 1) (tensor.px x y 1)
            (tensor.px x y 2))).1) / (2 * pi) := rfl

theorem orientationBucket_eq_floor (L : Lib) (tensor : Image) (nAngles x y : Int) :
    orientationBucket L tensor nAngles x y
      = ⌊testAngleValue L tensor x y * (nAngles : ℚ)⌋ := rfl

/-- The image `testAngle` returns holds `testAngleValue` at each pixel of `im`. -/
theorem testAngle_px (F : Filters) (L : Lib) (im : Image) (sigmaG factor : ℚ) (p q : Int)
    (hp : 0 ≤ p ∧ p < im.width) (hq : 0 ≤ q ∧ q < im.height) :
    (testAngle F L im sigmaG factor).px p q 0
      = testAngleValue L (computeTensor F im sigmaG factor) p q := by
  have hrow : ∀ x, Pointwise im.width im.height 1
      (fun a => forLoop 0 im.height
        (fun y a => a.set x y 0 (testAngleValue L (computeTensor F im sigmaG factor) x y)) a) _ :=
    fun x => Pointwise.forLoop
      (fun y => set_pointwise im.width im.height 1 x y 0
        (testAngleValue L (computeTensor F im sigmaG factor) x y)) _ _
  obtain ⟨-, -, -, hpx⟩ := Pointwise.forLoop hrow 0 im.width
    (Image.zeros im.width im.height 1) rfl rfl rfl
  have ha : (testAngle F L im sigmaG factor).px p q 0
      = (forLoop 0 im.width
          (fun x a => forLoop 0 im.height
            (fun y a => a.set x y 0 (testAngleValue L (computeTensor F im sigmaG factor) x y)) a)
          (Image.zeros im.width im.height 1)).px p q 0 := rfl
  rw [ha, hpx p q 0]
  beta_reduce
  rw [forLoop_single _ _ _ p, if_pos hp, forLoop_single _ _ _ q, if_pos hq]
  · simp
  · intro i hi v
    have : ¬ (p = p ∧ q = i ∧ (0 : Int) = 0) := fun hh => hi hh.2.1.symm
    rw [if_neg this]
  · intro i hi v
    apply forLoop_id
    intro j t
    have : ¬ (p = i ∧ q = j ∧ (0 : Int) = 0) := fun hh => hi hh.1.symm
    rw [if_neg this]

/-- C15: from the decomposition `((l0, l1), (v0, v1))` the solver returns, the
orientation code selects `v0` when `l0 < l1`, `v1` when `l1 < l0` and `v1` when
`l0 = l1`; the values of `testAngle` and of `singleScaleOrientedPaint` at the pixel
are functions of that selected eigenvector alone. -/
theorem smaller_eigenvalue_selected (L : Lib) (tensor : Image) (nAngles x y : Int)
    (l0 l1 : ℚ) (v0 v1 : ℚ × ℚ)
    (hs : L.solver (tensor.px x y 0) (tensor.px x y 1) (tensor.px x y 1) (tensor.px x y 2)
      = ((l0, l1), (v0, v1))) :
    (l0 < l1 → selectEvector ((l0, l1), (v0, v1)) = v0) ∧
    (l1 < l0 → selectEvector ((l0, l1), (v0, v1)) = v1) ∧
    (l0 = l1 → selectEvector ((l0, l1), (v0, v1)) = v1) ∧
    testAngleValue L tensor x y
      = 1 - normalizedAngle (L.atan2 (selectEvector ((l0, l1), (v0, v1))).2
          (selectEvector ((l0, l1), (v0, v1))).1) / (2 * pi) ∧
    orientationBucket L tensor nAngles x y
      = ⌊orientationUnit (L.atan2 (selectEvector ((l0, l1), (v0, v1))).2
          (selectEvector ((l0, l1), (v0, v1))).1) * (nAngles : ℚ)⌋ := by
  refine ⟨fun h => ?_, fun h => ?_, fun h => ?_, ?_, ?_⟩
  · simp only [selectEvector]
    rw [if_pos h]
  · simp only [selectEvector]
    rw [if_neg (not_lt.2 h.le)]
  · simp only [selectEvector]
    rw [if_neg (by rw [h]; exact lt_irrefl _)]
  · rw [testAngleValue_eq, hs]
  · unfold orientationBucket
    dsimp only
    rw [hs]

theorem smaller_eigenvalue_selected_witness :
    ((0 : ℚ) < 1 → selectEvector ((0, 1), ((1, 0), (0, 1))) = (1, 0)) ∧
    testAngleValue axisLib rowTensor 0 0
      = 1 - normalizedAngle (axisLib.atan2 (selectEvector ((0, 1), ((1, 0), (0, 1)))).2
          (selectEvector ((0, 1), ((1, 0), (0, 1)))).1) / (2 * pi) :=
  ⟨(smaller_eigenvalue_selected axisLib rowTensor 4 0 0 0 1 (1, 0) (0, 1)
      (by simp [axisLib, rowTensor])).1,
   (smaller_eigenvalue_selected axisLib rowTensor 4 0 0 0 1 (1, 0) (0, 1)
      (by simp [axisLib, rowTensor])).2.2.2.1⟩

theorem Pointwise.comp {W H C : Int} {f1 f2 : Image → Image}
    {g1 g2 : Int → Int → Int → ℚ → ℚ} (h1 : Pointwise W H C f1 g1)
    (h2 : Pointwise W H C f2 g2) :
    Pointwise W H C (fun im => f2 (f1 im)) (fun p q c v => g2 p q c (g1 p q c v)) := by
  intro im hW hH hC
  obtain ⟨a1, a2, a3, a4⟩ := h1 im hW hH hC
  obtain ⟨b1, b2, b3, b4⟩ := h2 (f1 im) a1 a2 a3
  refine ⟨b1, b2, b3, fun p q c => ?_⟩
  rw [b4 p q c, a4 p q c]

/-- The image `M` of `computeTensor` has the sizes of `im`, three channels, and
holds the outer products of the gradient at each pixel of `im`. -/
theorem outerProducts_px (im Ix Iy : Image) :
    (outerProducts im Ix Iy).width = im.width ∧
    (outerProducts im Ix Iy).height = im.height ∧
    (outerProducts im Ix Iy).channels = 3 ∧
    ∀ p q : Int, (0 ≤ p ∧ p < im.width) → (0 ≤ q ∧ q < im.height) →
      (outerProducts im Ix Iy).px p q 0 = Ix.px p q 0 * Ix.px p q 0 ∧
      (outerProducts im Ix Iy).px p q 1 = Ix.px p q 0 * Iy.px p q 0 ∧
      (outerProducts im Ix Iy).px p q 2 = Iy.px p q 0 * Iy.px p q 0 := by
  have hcell : ∀ x y, Pointwise im.width im.height 3
      (fun M => ((M.set x y 0 (Ix.px x y 0 * Ix.px x y 0)).set x y 1
        (Ix.px x y 0 * Iy.px x y 0)).set x y 2 (Iy.px x y 0 * Iy.px x y 0)) _ :=
    fun x y => Pointwise.comp
      (Pointwise.comp (set_pointwise im.width im.height 3 x y 0 (Ix.px x y 0 * Ix.px x y 0))
        (set_pointwise im.width im.height 3 x y 1 (Ix.px x y 0 * Iy.px x y 0)))
      (set_pointwise im.width im.height 3 x y 2 (Iy.px x y 0 * Iy.px x y 0))
  have hrow : ∀ x, Pointwise im.width im.height 3
      (fun M => forLoop 0 im.height
        (fun y M => ((M.set x y 0 (Ix.px x y 0 * Ix.px x y 0)).set x y 1
          (Ix.px x y 0 * Iy.px x y 0)).set x y 2 (Iy.px x y 0 * Iy.px x y 0)) M) _ :=
    fun x => Pointwise.forLoop (fun y => hcell x y) _ _
  obtain ⟨d1, d2, d3, hpx⟩ := Pointwise.forLoop hrow 0 im.width
    (Image.zeros im.width im.height 3) rfl rfl rfl
  refine ⟨d1, d2, d3, fun p q hp hq => ?_⟩
  have key : ∀ c : Int, (outerProducts im Ix Iy).px p q c
      = if p = p ∧ q = q ∧ c = 2 then Iy.px p q 0 * Iy.px p q 0
        else if p = p ∧ q = q ∧ c = 1 then Ix.px p q 0 * Iy.px p q 0
        else if p = p ∧ q = q ∧ c = 0 then Ix.px p q 0 * Ix.px p q 0
        else (Image.zeros im.width im.height 3).px p q c := by
    intro c
    have ha : (outerProducts im Ix Iy).px p q c
        = (forLoop 0 im.width
            (fun x M => forLoop 0 im.height
              (fun y M => ((M.set x y 0 (Ix.px x y 0 * Ix.px x y 0)).set x y 1
                (Ix.px x y 0 * Iy.px x y 0)).set x y 2 (Iy.px x y 0 * Iy.px x y 0)) M)
            (Image.zeros im.width im.height 3)).px p q c := rfl
    rw [ha, hpx p q c]
    beta_reduce
    rw [forLoop_single _ _ _ p, if_pos hp, forLoop_single _ _ _ q, if_pos hq]
    · intro i hi v
      have n2 : ¬ (p = p ∧ q = i ∧ c = 2) := fun hh => hi hh.2.1.symm
      have n1 : ¬ (p = p ∧ q = i ∧ c = 1) := fun hh => hi hh.2.1.symm
      have n0 : ¬ (p = p ∧ q = i ∧ c = 0) := fun hh => hi hh.2.1.symm
      rw [if_neg n2, if_neg n1, if_neg n0]
    · intro i hi v
      apply forLoop_id
      intro j t
      have n2 : ¬ (p = i ∧ q = j ∧ c = 2) := fun hh => hi hh.1.symm
      have n1 : ¬ (p = i ∧ q = j ∧ c = 1) := fun hh => hi hh.1.symm
      have n0 : ¬ (p = i ∧ q = j ∧ c = 0) := fun hh => hi hh.1.symm
      rw [if_neg n2, if_neg n1, if_neg n0]
  refine ⟨?_, ?_, ?_⟩
  · rw [key 0]
    simp
  · rw [key 1]
    simp
  · rw [key 2]
    simp

/-- C20: at every pixel of `im` the bucket that `singleScaleOrientedPaint` stores
in `angle_textures` for the tensor `computeTensor(im, sigmaG, factor)` is
`floor(v * nAngles)`, where `v` is the sample the image returned by
`testAngle(im, sigmaG, factor)` holds at that pixel, computed from the same tensor. -/
theorem bucket_is_floor_of_testAngle (F : Filters) (L : Lib) (im : Image)
    (sigmaG factor : ℚ) (nAngles x y : Int)
    (hx : 0 ≤ x ∧ x < im.width) (hy : 0 ≤ y ∧ y < im.height) :
    (angleTextures L im (computeTensor F im sigmaG factor) nAngles).px x y 0
      = ((⌊(testAngle F L im sigmaG factor).px x y 0 * (nAngles : ℚ)⌋ : Int) : ℚ) ∧
    orientationBucket L (computeTensor F im sigmaG factor) nAngles x y
      = ⌊(testAngle F L im sigmaG factor).px x y 0 * (nAngles : ℚ)⌋ := by
  have hv := testAngle_px F L im sigmaG factor x y hx hy
  constructor
  · rw [angleTextures_px L im (computeTensor F im sigmaG factor) nAngles x y hx hy, hv,
      orientationBucket_eq_floor]
  · rw [hv]
    exact orientationBucket_eq_floor L (computeTensor F im sigmaG factor) nAngles x y

theorem bucket_is_floor_of_testAngle_witness :
    (angleTextures axisLib rampCanvas (computeTensor halfFilters rampCanvas 1 4) 4).px 1 2 0
      = ((⌊(testAngle halfFilters axisLib rampCanvas 1 4).px 1 2 0 * ((4 : Int) : ℚ)⌋ : Int) : ℚ) ∧
    orientationBucket axisLib (computeTensor halfFilters rampCanvas 1 4) 4 1 2
      = ⌊(testAngle halfFilters axisLib rampCanvas 1 4).px 1 2 0 * ((4 : Int) : ℚ)⌋ :=
  bucket_is_floor_of_testAngle halfFilters axisLib rampCanvas 1 4 4 1 2 (by decide) (by decide)

/-! ## The stroke colour: C17 -/

theorem forLoop_invariant {σ : Type} (P : σ → Prop) (lo hi : Int) (body : Int → σ → σ)
    (h : ∀ i s, P s → P (body i s)) (s : σ) (hs : P s) : P (forLoop lo hi body s) := by
  unfold forLoop
  generalize (List.range (hi - lo).toNat).map (fun k : Nat => lo + (k : Int)) = l
  induction l generalizing s with
  | nil => exact hs
  | cons a l ih => exact ih (body a s) (h a s hs)

theorem draw_fraction_range (RAND_MAX r : Nat) (hR : 0 < RAND_MAX) (hr : r ≤ RAND_MAX) :
    0 ≤ (r : ℚ) / (RAND_MAX : ℚ) ∧ (r : ℚ) / (RAND_MAX : ℚ) ≤ 1 := by
  have hpos : (0 : ℚ) < (RAND_MAX : ℚ) := by exact_mod_cast hR
  have hle : (r : ℚ) ≤ (RAND_MAX : ℚ) := by exact_mod_cast hr
  exact ⟨div_nonneg (by positivity) hpos.le, (div_le_one hpos).2 hle⟩

theorem strokesColored_append (RAND_MAX : Nat) (rand : Nat → Nat) (im : Image) (noise : ℚ)
    (strokes : List Stroke) (x y : Int) (c : Nat)
    (h : ∀ s ∈ strokes, ∃ c : Nat, s.color = strokeColor RAND_MAX rand im s.x s.y noise c) :
    ∀ s ∈ strokes ++ [⟨x, y, strokeColor RAND_MAX rand im x y noise c⟩],
      ∃ c : Nat, s.color = strokeColor RAND_MAX rand im s.x s.y noise c := by
  intro s hs
  simp only [List.mem_append, List.mem_singleton] at hs
  rcases hs with hs | rfl
  · exact h s hs
  · exact ⟨c, rfl⟩

/-- C17, as stated, fails: a colour draw equal to `RAND_MAX` gives `U = 1`, which
is not below 1, and the multiplier `1 + noise/2` itself (here `3/2` for
`noise = 1`). -/
theorem color_draw_reaches_one :
    strokeColor 2147483647 (fun _ => 2147483647) (constImage 1 1 3 1) 0 0 1 0
      = [3 / 2, 3 / 2, 3 / 2] ∧
    ¬ ((2147483647 : ℚ) / 2147483647 < 1) ∧
    ¬ ((1 : ℚ) - 1 / 2 + 1 * ((2147483647 : ℚ) / 2147483647) < 1 + 1 / 2) := by
  refine ⟨?_, by norm_num, by norm_num⟩
  simp only [strokeColor, smartAccessor, constImage]
  norm_num

/-- C17, amended: the colour of a stroke at `(x, y)` is, per channel `c`,
`sourceColor_c(x, y) * (1 - noise/2 + noise * U_c)` with `U_c = r_c / RAND_MAX` a
separate draw per channel lying in `[0, 1]` (1 included), so for `noise >= 0` the
multiplier lies in `[1 - noise/2, 1 + noise/2]`, and with `noise = 0` the colour is
the source colour read with clamped-edge access; every stroke of `singleScalePaint`
and of both importance samplers has such a colour. -/
theorem strokeColor_noise_range (L : Lib) (rand : Nat → Nat) (fuel : Nat)
    (im importance out tensor texture : Image) (size N : Int) (noise : ℚ) (nAngles : Int)
    (x y : Int) (c : Nat)
    (hR : 0 < L.RAND_MAX) (hr : ∀ k, rand k ≤ L.RAND_MAX) (hn : 0 ≤ noise) :
    strokeColor L.RAND_MAX rand im x y noise c
      = [smartAccessor im x y 0
            * (1 - noise / 2 + noise * ((rand c : ℚ) / (L.RAND_MAX : ℚ))),
         smartAccessor im x y 1
            * (1 - noise / 2 + noise * ((rand (c + 1) : ℚ) / (L.RAND_MAX : ℚ))),
         smartAccessor im x y 2
            * (1 - noise / 2 + noise * ((rand (c + 2) : ℚ) / (L.RAND_MAX : ℚ)))] ∧
    (∀ k : Nat, (0 ≤ (rand k : ℚ) / (L.RAND_MAX : ℚ) ∧ (rand k : ℚ) / (L.RAND_MAX : ℚ) ≤ 1) ∧
      1 - noise / 2 ≤ 1 - noise / 2 + noise * ((rand k : ℚ) / (L.RAND_MAX : ℚ)) ∧
      1 - noise / 2 + noise * ((rand k : ℚ) / (L.RAND_MAX : ℚ)) ≤ 1 + noise / 2) ∧
    (noise = 0 → strokeColor L.RAND_MAX rand im x y noise c
      = [smartAccessor im x y 0, smartAccessor im x y 1, smartAccessor im x y 2]) ∧
    (∀ s ∈ (singleScalePaint L rand im out texture size N noise).strokes,
      ∃ c : Nat, s.color = strokeColor L.RAND_MAX rand im s.x s.y noise c) ∧
    (∀ st, (singleScalePaintImportance L rand fuel im importance out texture size N
          noise).reached = some st →
        ∀ s ∈ st.strokes, ∃ c : Nat, s.color = strokeColor L.RAND_MAX rand im s.x s.y noise c) ∧
    (∀ st, (singleScaleOrientedPaint L rand fuel im importance out tensor texture size N
          noise nAngles).reached = some st →
        ∀ s ∈ st.strokes, ∃ c : Nat, s.color = strokeColor L.RAND_MAX rand im s.x s.y noise c) := by
  refine ⟨?_, ?_, ?_, ?_, ?_, ?_⟩
  · simp only [strokeColor, mul_div_assoc]
  · intro k
    obtain ⟨h0, h1⟩ := draw_fraction_range L.RAND_MAX (rand k) hR (hr k)
    refine ⟨⟨h0, h1⟩, ?_, ?_⟩
    · have := mul_nonneg hn h0
      linarith
    · have := mul_le_mul_of_nonneg_left h1 hn
      linarith
  · intro h0
    subst h0
    simp [strokeColor]
  · exact forLoop_invariant (StrokesColored L.RAND_MAX rand im noise) 0 N
      (fun _ st => paintStep L.RAND_MAX rand im (L.scaleLin texture (scaleFactor texture size))
        noise st)
      (fun _ st hst => strokesColored_append _ _ _ _ st.strokes _ _ _ hst) ⟨out, 0, 0, []⟩
      (fun s hs => by simp at hs)
  · intro st hst
    refine boundedLoop_invariant (StrokesColored L.RAND_MAX rand im noise) _ _ ?_ fuel
      ⟨out, 0, 0, []⟩ (fun s hs => by simp at hs) st hst
    intro s t hs _ hb
    simp only [Option.some.injEq] at hb
    subst hb
    unfold importanceStep
    dsimp only
    split_ifs
    · exact strokesColored_append _ _ _ _ _ _ _ _ hs
    · exact hs
  · intro st hst
    refine boundedLoop_invariant (StrokesColored L.RAND_MAX rand im noise) _ _ ?_ fuel
      ⟨out, 0, 0, []⟩ (fun s hs => by simp at hs) st hst
    intro s t hs _ hb
    unfold orientedStep at hb
    dsimp only at hb
    split_ifs at hb
    · split at hb
      · simp only [Option.some.injEq] at hb
        subst hb
        exact strokesColored_append _ _ _ _ _ _ _ _ hs
      · simp at hb
    · simp only [Option.some.injEq] at hb
      subst hb
      exact hs

theorem strokeColor_noise_range_witness :
    strokeColor axisLib.RAND_MAX (fun k => k % 1000) (constImage 1 1 3 1) 0 0 0 7
      = [smartAccessor (constImage 1 1 3 1) 0 0 0, smartAccessor (constImage 1 1 3 1) 0 0 1,
         smartAccessor (constImage 1 1 3 1) 0 0 2] :=
  (strokeColor_noise_range axisLib (fun k => k % 1000) 3 (constImage 1 1 3 1) (constImage 1 1 1 1)
    (constImage 1 1 3 0) rowTensor (flatTexture 1) 2 1 0 4 0 0 7
    (by decide) (fun k => by
      have : k % 1000 < 1000 := Nat.mod_lt _ (by decide)
      show k % 1000 ≤ 2147483647
      omega) (le_refl 0)).2.2.1 rfl

/-! ## The iteration count: C18 -/

theorem importanceStep_i (RAND_MAX : Nat) (rand : Nat → Nat) (im importance texture : Image)
    (noise : ℚ) (st : SamplerState) :
    (importanceStep RAND_MAX rand im importance texture noise st).i = st.i + 1 := by
  unfold importanceStep
  dsimp only
  split_ifs <;> rfl

theorem orientedStep_i (RAND_MAX : Nat) (rand : Nat → Nat) (im importance : Image)
    (rotated : List Image) (angles : Image) (noise : ℚ) (st t : SamplerState)
    (ht : orientedStep RAND_MAX rand im importance rotated angles noise st = some t) :
    t.i = st.i + 1 := by
  unfold orientedStep at ht
  dsimp only at ht
  split_ifs at ht
  · split at ht
    · simp only [Option.some.injEq] at ht
      subst ht
      rfl
    · simp at ht
  · simp only [Option.some.injEq] at ht
    subst ht
    rfl

theorem roundHalfEven_intCast (k : Int) : roundHalfEven (k : ℚ) = k := by
  unfold roundHalfEven
  rw [Int.floor_intCast, sub_self, if_pos (by norm_num)]

theorem roundHalfEven_of_lt_half (r : ℚ) (f : Int) (h1 : (f : ℚ) ≤ r)
    (h2 : r < (f : ℚ) + 1 / 2) : roundHalfEven r = f := by
  have hf : ⌊r⌋ = f := Int.floor_eq_iff.2 ⟨h1, by linarith⟩
  unfold roundHalfEven
  rw [hf, if_pos (by linarith)]

theorem roundHalfEven_nonneg (r : ℚ) (hr : 0 ≤ r) : 0 ≤ roundHalfEven r := by
  have hf : 0 ≤ ⌊r⌋ := Int.floor_nonneg.2 hr
  unfold roundHalfEven
  split_ifs <;> omega

theorem binaryExponent_eq (q : ℚ) (hq : 0 < q) (e : Int) (h1 : (2 : ℚ) ^ e ≤ q)
    (h2 : q < (2 : ℚ) ^ (e + 1)) (he : -126 ≤ e) : binaryExponent q = e := by
  have hb : (1 : ℕ) < 2 := by norm_num
  have c : ((2 : ℕ) : ℚ) = 2 := by norm_num
  have l1 : e ≤ Int.log 2 q := (Int.zpow_le_iff_le_log hb hq).1 (by rw [c]; exact h1)
  have l2 : Int.log 2 q < e + 1 := (Int.lt_zpow_iff_log_lt hb hq).1 (by rw [c]; exact h2)
  unfold binaryExponent
  rw [abs_of_pos hq]
  have : Int.log 2 q = e := by omega
  rw [this]
  exact max_eq_left he

/-- The rounding of a positive `q` whose binade and rounded significand are
known. -/
theorem roundBinary32_eval (q : ℚ) (hq : 0 < q) (e m : Int) (h1 : (2 : ℚ) ^ e ≤ q)
    (h2 : q < (2 : ℚ) ^ (e + 1)) (he : -126 ≤ e)
    (hm : roundHalfEven (q / (2 : ℚ) ^ (e - 23)) = m)
    (hlt : (m : ℚ) * (2 : ℚ) ^ (e - 23) < (2 : ℚ) ^ 128) :
    roundBinary32 q = .fin ((m : ℚ) * (2 : ℚ) ^ (e - 23)) := by
  have hpow : (0 : ℚ) < (2 : ℚ) ^ (e - 23) := zpow_pos (by norm_num) _
  have hm0 : 0 ≤ m := by
    rw [← hm]
    exact roundHalfEven_nonneg _ (div_nonneg hq.le hpow.le)
  have hr0 : (0 : ℚ) ≤ (m : ℚ) * (2 : ℚ) ^ (e - 23) :=
    mul_nonneg (by exact_mod_cast hm0) hpow.le
  unfold roundBinary32
  rw [binaryExponent_eq q hq e h1 h2 he, hm, if_neg (ne_of_gt hq), if_neg (not_le.2 hlt),
    if_neg]
  have : (0 : ℚ) < (2 : ℚ) ^ 128 := by norm_num
  linarith

theorem roundBinary32_nonneg (q r : ℚ) (hq : 0 ≤ q) (h : roundBinary32 q = .fin r) :
    0 ≤ r := by
  unfold roundBinary32 at h
  split_ifs at h with h0 h1 h2
  · simp only [FloatVal.fin.injEq] at h
    rw [← h]
  · simp only [FloatVal.fin.injEq] at h
    rw [← h]
    have hpow : (0 : ℚ) < (2 : ℚ) ^ (binaryExponent q - 23) := zpow_pos (by norm_num) _
    have := roundHalfEven_nonneg _ (div_nonneg hq hpow.le)
    exact mul_nonneg (by exact_mod_cast this) hpow.le

/-- The conversion of an `int` between 0 and `2^24` to `float` is exact. -/
theorem ofInt32_small (i : Int) (h0 : 0 ≤ i) (h1 : i ≤ 2 ^ 24) :
    FloatVal.ofInt32 i = .fin (i : ℚ) := by
  unfold FloatVal.ofInt32
  rcases eq_or_lt_of_le h0 with hz | hpos
  · rw [← hz]
    simp [roundBinary32]
  have hq : (0 : ℚ) < (i : ℚ) := by exact_mod_cast hpos
  have hq1 : (1 : ℚ) ≤ (i : ℚ) := by exact_mod_cast hpos
  have hq24 : (i : ℚ) ≤ (2 : ℚ) ^ 24 := by exact_mod_cast h1
  have hb : (1 : ℕ) < 2 := by norm_num
  have c : ((2 : ℕ) : ℚ) = 2 := by norm_num
  have l0 : (0 : Int) ≤ Int.log 2 (i : ℚ) :=
    (Int.zpow_le_iff_le_log hb hq).1 (by rw [c]; norm_num; exact hq1)
  have l25 : Int.log 2 (i : ℚ) < 25 :=
    (Int.lt_zpow_iff_log_lt hb hq).1 (by rw [c]; norm_num; linarith)
  have b1 : (2 : ℚ) ^ Int.log 2 (i : ℚ) ≤ (i : ℚ) := by
    have := Int.zpow_log_le_self hb hq
    rwa [c] at this
  have b2 : (i : ℚ) < (2 : ℚ) ^ (Int.log 2 (i : ℚ) + 1) := by
    have := Int.lt_zpow_succ_log_self hb (i : ℚ)
    rwa [c] at this
  generalize Int.log 2 (i : ℚ) = e at l0 l25 b1 b2
  by_cases he : e ≤ 23
  · obtain ⟨n, hn⟩ : ∃ n : Nat, e - 23 = -(n : Int) := ⟨(23 - e).toNat, by omega⟩
    have hpow : (2 : ℚ) ^ (e - 23) = ((2 : ℚ) ^ n)⁻¹ := by rw [hn, zpow_neg, zpow_natCast]
    have hm : roundHalfEven ((i : ℚ) / (2 : ℚ) ^ (e - 23)) = i * 2 ^ n := by
      rw [hpow, div_inv_eq_mul]
      have : (i : ℚ) * (2 : ℚ) ^ n = ((i * 2 ^ n : Int) : ℚ) := by push_cast; rfl
      rw [this, roundHalfEven_intCast]
    have hback : ((i * 2 ^ n : Int) : ℚ) * (2 : ℚ) ^ (e - 23) = (i : ℚ) := by
      rw [hpow]
      push_cast
      field_simp
    have h := roundBinary32_eval (i : ℚ) hq e (i * 2 ^ n) b1 b2 (by omega) hm
      (by rw [hback]; have : (2 : ℚ) ^ 24 < (2 : ℚ) ^ 128 := by norm_num
          linarith)
    rw [h, hback]
  · have he24 : e = 24 := by omega
    subst he24
    have b1n : (2 : ℚ) ^ 24 ≤ (i : ℚ) := by
      have e24 : (2 : ℚ) ^ (24 : Int) = (2 : ℚ) ^ 24 := by norm_num
      rw [← e24]
      exact b1
    have hi : (i : ℚ) = (2 : ℚ) ^ 24 := le_antisymm hq24 b1n
    have hm : roundHalfEven ((i : ℚ) / (2 : ℚ) ^ ((24 : Int) - 23)) = 2 ^ 23 := by
      rw [hi]
      have : (2 : ℚ) ^ 24 / (2 : ℚ) ^ ((24 : Int) - 23) = (((2 ^ 23 : Int)) : ℚ) := by norm_num
      rw [this, roundHalfEven_intCast]
    have h := roundBinary32_eval (i : ℚ) hq 24 (2 ^ 23) b1 b2 (by norm_num) hm (by norm_num)
    rw [h, hi]
    norm_num

theorem quotient32_nonneg (N : Int) (q Q : ℚ) (hN : 0 ≤ N) (hq : 0 < q)
    (hQ : FloatVal.div32 (FloatVal.ofInt32 N) (.fin q) = .fin Q) : 0 ≤ Q := by
  have hNq : (0 : ℚ) ≤ (N : ℚ) := by exact_mod_cast hN
  unfold FloatVal.div32 FloatVal.ofInt32 at hQ
  cases hn : roundBinary32 (N : ℚ) with
  | fin n =>
    have hn0 := roundBinary32_nonneg _ _ hNq hn
    rw [hn, FloatVal.div_fin_of_ne _ _ (ne_of_gt hq)] at hQ
    exact roundBinary32_nonneg _ _ (div_nonneg hn0 hq.le) hQ
  | posInf =>
    rw [hn] at hQ
    simp [FloatVal.div, not_lt.2 hq.le] at hQ
  | negInf =>
    rw [hn] at hQ
    simp [FloatVal.div, not_lt.2 hq.le] at hQ
  | nan =>
    rw [hn] at hQ
    simp [FloatVal.div] at hQ

theorem loopCond32_small (N : Int) (q Q : ℚ)
    (hQ : FloatVal.div32 (FloatVal.ofInt32 N) (.fin q) = .fin Q) (st : SamplerState)
    (h0 : 0 ≤ st.i) (h1 : st.i ≤ 2 ^ 24) :
    loopCond32 N (.fin q) st = decide (st.i < ⌈Q⌉) := by
  unfold loopCond32
  rw [hQ, ofInt32_small st.i h0 h1]
  simp only [FloatVal.lt]
  rw [decide_eq_decide]
  exact Int.lt_ceil.symm

theorem ceil_quotient32_bounds (N : Int) (q Q : ℚ) (hN : 0 ≤ N) (hq : 0 < q)
    (hQ : FloatVal.div32 (FloatVal.ofInt32 N) (.fin q) = .fin Q) (hQmax : Q ≤ 2 ^ 24) :
    0 ≤ ⌈Q⌉ ∧ ⌈Q⌉ ≤ 2 ^ 24 :=
  ⟨Int.ceil_nonneg (quotient32_nonneg N q Q hN hq hQ),
    Int.ceil_le.2 (by push_cast; exact hQmax)⟩

/-- The importance sampler with the `float` loop bound `Q <= 2^24` returns after
`ceil(Q)` iterations. -/
theorem importance32_returns (L : Lib) (rand : Nat → Nat) (fuel : Nat)
    (im importance out texture : Image) (size N : Int) (noise : ℚ) (q Q : ℚ)
    (hrate : acceptanceRate32 importance = .fin q) (hq : 0 < q) (hN : 0 ≤ N)
    (hQ : FloatVal.div32 (FloatVal.ofInt32 N) (.fin q) = .fin Q) (hQmax : Q ≤ 2 ^ 24)
    (hfuel : ⌈Q⌉.toNat ≤ fuel) :
    ∃ st, singleScalePaintImportance32 L rand fuel im importance out texture size N noise
      = .returned st ∧ st.i = ⌈Q⌉ := by
  obtain ⟨hc0, hc24⟩ := ceil_quotient32_bounds N q Q hN hq hQ hQmax
  unfold singleScalePaintImportance32
  dsimp only
  rw [hrate]
  obtain ⟨t, ht, hi, -⟩ := boundedLoop_returned
    (fun k st => st.i = (k : Int) ∧ k ≤ ⌈Q⌉.toNat)
    (loopCond32 N (.fin q))
    (fun st =>
      if st.i < INT_MAX then
        some (importanceStep L.RAND_MAX rand im importance
          (L.scaleLin texture (scaleFactor texture size)) noise st)
      else none)
    ⌈Q⌉.toNat
    (fun k s hs => by
      rw [loopCond32_small N q Q hQ s (by rw [hs.1]; omega) (by rw [hs.1]; omega),
        decide_eq_true_eq, hs.1]
      omega)
    (fun k s hs hk => ⟨importanceStep L.RAND_MAX rand im importance
        (L.scaleLin texture (scaleFactor texture size)) noise s, by
      have hlt : s.i < INT_MAX := by
        rw [hs.1]
        unfold INT_MAX
        omega
      beta_reduce
      rw [if_pos hlt], by
      beta_reduce
      rw [importanceStep_i, hs.1]
      constructor
      · push_cast
        rfl
      · omega⟩)
    ⌈Q⌉.toNat fuel 0 ⟨out, 0, 0, []⟩ (by omega) hfuel ⟨by simp, by omega⟩
  refine ⟨t, ht, ?_⟩
  rw [hi]
  exact Int.toNat_of_nonneg hc0

theorem orientedStep_some (RAND_MAX : Nat) (rand : Nat → Nat) (im importance : Image)
    (rotated : List Image) (angles : Image) (noise : ℚ) (st : SamplerState)
    (hlookup : ∃ t, textureAt rotated (angles.px (candidate rand st.out st.cursor).1
      (candidate rand st.out st.cursor).2 0) = some t) :
    ∃ t, orientedStep RAND_MAX rand im importance rotated angles noise st = some t ∧
      t.i = st.i + 1 ∧ t.out.width = st.out.width ∧ t.out.height = st.out.height := by
  obtain ⟨tex, htex⟩ := hlookup
  unfold orientedStep
  dsimp only
  split_ifs
  · rw [htex]
    obtain ⟨d1, d2, -⟩ := brush_dims st.out (candidate rand st.out st.cursor).1
      (candidate rand st.out st.cursor).2
      (strokeColor RAND_MAX rand im (candidate rand st.out st.cursor).1
        (candidate rand st.out st.cursor).2 noise (st.cursor + 3)) tex
    exact ⟨_, rfl, rfl, d1, d2⟩
  · exact ⟨_, rfl, rfl, rfl, rfl⟩

/-- The oriented sampler with the `float` loop bound `Q <= 2^24` returns after
`ceil(Q)` iterations when every bucket it can look up is a valid index. -/
theorem oriented32_returns (L : Lib) (rand : Nat → Nat) (fuel : Nat)
    (im importance out tensor texture : Image) (size N : Int) (noise : ℚ) (nAngles : Int)
    (q Q : ℚ)
    (hrate : acceptanceRate32 importance = .fin q) (hq : 0 < q) (hN : 0 ≤ N)
    (hQ : FloatVal.div32 (FloatVal.ofInt32 N) (.fin q) = .fin Q) (hQmax : Q ≤ 2 ^ 24)
    (hfuel : ⌈Q⌉.toNat ≤ fuel)
    (hsize : 0 < out.width ∧ 0 < out.height)
    (hlookup : ∀ x y : Int, (0 ≤ x ∧ x < out.width) → (0 ≤ y ∧ y < out.height) →
      ∃ t, textureAt (rotateBrushes L (L.scaleLin texture (scaleFactor texture size)) nAngles)
        ((angleTextures L im tensor nAngles).px x y 0) = some t) :
    ∃ st, singleScaleOrientedPaint32 L rand fuel im importance out tensor texture size N noise
      nAngles = .returned st ∧ st.i = ⌈Q⌉ := by
  obtain ⟨hc0, hc24⟩ := ceil_quotient32_bounds N q Q hN hq hQ hQmax
  unfold singleScaleOrientedPaint32
  dsimp only
  rw [hrate]
  obtain ⟨t, ht, hi, -⟩ := boundedLoop_returned
    (fun k st => st.i = (k : Int) ∧ k ≤ ⌈Q⌉.toNat ∧
      st.out.width = out.width ∧ st.out.height = out.height)
    (loopCond32 N (.fin q))
    (fun st =>
      if st.i < INT_MAX then
        orientedStep L.RAND_MAX rand im importance
          (rotateBrushes L (L.scaleLin texture (scaleFactor texture size)) nAngles)
          (angleTextures L im tensor nAngles) noise st
      else none)
    ⌈Q⌉.toNat
    (fun k s hs => by
      rw [loopCond32_small N q Q hQ s (by rw [hs.1]; omega) (by rw [hs.1]; omega),
        decide_eq_true_eq, hs.1]
      omega)
    (fun k s hs hk => by
      have hlt : s.i < INT_MAX := by
        rw [hs.1]
        unfold INT_MAX
        omega
      have hb := candidate_in_bounds rand s.out s.cursor
        (by rw [hs.2.2.1]; exact hsize.1) (by rw [hs.2.2.2]; exact hsize.2)
      rw [hs.2.2.1, hs.2.2.2] at hb
      obtain ⟨t, ht, hti, hw, hh⟩ := orientedStep_some L.RAND_MAX rand im importance
        (rotateBrushes L (L.scaleLin texture (scaleFactor texture size)) nAngles)
        (angleTextures L im tensor nAngles) noise s (hlookup _ _ hb.1 hb.2)
      refine ⟨t, by beta_reduce; rw [if_pos hlt]; exact ht, ?_, by omega, hw.trans hs.2.2.1,
        hh.trans hs.2.2.2⟩
      rw [hti, hs.1]
      push_cast
      rfl)
    ⌈Q⌉.toNat fuel 0 ⟨out, 0, 0, []⟩ (by omega) hfuel ⟨by simp, by omega, rfl, rfl⟩
  refine ⟨t, ht, ?_⟩
  rw [hi]
  exact Int.toNat_of_nonneg hc0

theorem forLoop_one {σ : Type} (body : Int → σ → σ) (s : σ) :
    forLoop 0 1 body s = body 0 s := by
  have h : List.range 1 = [0] := rfl
  simp [forLoop, h]

theorem FloatVal.div32_fin (a b : ℚ) (hb : b ≠ 0) :
    FloatVal.div32 (.fin a) (.fin b) = roundBinary32 (a / b) := by
  unfold FloatVal.div32
  rw [FloatVal.div_fin_of_ne a b hb]

theorem roundBinary32_float004 : roundBinary32 float004 = .fin float004 := by
  have hm : roundHalfEven (float004 / (2 : ℚ) ^ ((-5 : Int) - 23)) = 10737418 := by
    have : float004 / (2 : ℚ) ^ ((-5 : Int) - 23) = ((10737418 : Int) : ℚ) := by
      norm_num [float004]
    rw [this, roundHalfEven_intCast]
  rw [roundBinary32_eval float004 (by norm_num [float004]) (-5) 10737418
    (by norm_num [float004]) (by norm_num [float004]) (by norm_num) hm (by norm_num)]
  norm_num [float004]

theorem acceptanceRate32_sparseMap : acceptanceRate32 sparseMap = .fin float004 := by
  have hpos : float004 > 0 ∧ float004 < 1 := by norm_num [float004]
  have htot : totalWeight32 sparseMap = .fin float004 := by
    unfold totalWeight32
    have hw : sparseMap.width = 1 := rfl
    have hh : sparseMap.height = 1 := rfl
    rw [hw, hh, forLoop_one, forLoop_one]
    have hv : sparseMap.px 0 0 0 = float004 := rfl
    rw [hv]
    unfold addWeight32
    rw [if_pos hpos]
    simp only [FloatVal.add32, zero_add]
    exact roundBinary32_float004
  unfold acceptanceRate32
  have hprod : sparseMap.width * sparseMap.height = 1 := rfl
  rw [htot, hprod, ofInt32_small 1 (by norm_num) (by norm_num),
    FloatVal.div32_fin _ _ (by norm_num)]
  simp only [Int.cast_one, div_one]
  exact roundBinary32_float004

theorem quotient32_sparseMap :
    FloatVal.div32 (FloatVal.ofInt32 1) (.fin float004) = .fin 25 := by
  have hne : float004 ≠ 0 := by norm_num [float004]
  rw [ofInt32_small 1 (by norm_num) (by norm_num), FloatVal.div32_fin _ _ hne]
  have hm : roundHalfEven (((1 : Int) : ℚ) / float004 / (2 : ℚ) ^ ((4 : Int) - 23))
      = 13107200 :=
    roundHalfEven_of_lt_half _ 13107200 (by norm_num [float004]) (by norm_num [float004])
  rw [roundBinary32_eval (((1 : Int) : ℚ) / float004) (by norm_num [float004]) 4 13107200
    (by norm_num [float004]) (by norm_num [float004]) (by norm_num) hm (by norm_num)]
  norm_num

/-- C18, as stated, fails: for the 1 x 1 importance map holding the `float` 0.04
and `N = 1` the rate is 0.04f and `ceil(N / rate)` is 26, but the quotient
`N / p_accept` of the loop test is a `float`, rounded to exactly 25, and the loop
returns after 25 iterations. -/
theorem rounded_quotient_drops_an_iteration :
    acceptanceRate32 sparseMap = .fin float004 ∧ 0 < float004 ∧
    ⌈((1 : Int) : ℚ) / float004⌉ = 26 ∧
    ∃ st, singleScalePaintImportance32 axisLib stepDraws 30 (constImage 1 1 3 1) sparseMap
        (constImage 1 1 3 0) (constImage 1 1 3 1) 1 1 0 = .returned st ∧ st.i = 25 := by
  refine ⟨acceptanceRate32_sparseMap, by norm_num [float004], ?_, ?_⟩
  · rw [Int.ceil_eq_iff]
    norm_num [float004]
  · obtain ⟨st, hst, hi⟩ := importance32_returns axisLib stepDraws 30 (constImage 1 1 3 1)
      sparseMap (constImage 1 1 3 0) (constImage 1 1 3 1) 1 1 0 float004 25
      acceptanceRate32_sparseMap (by norm_num [float004]) (by norm_num) quotient32_sparseMap
      (by norm_num) (by
        have : ⌈(25 : ℚ)⌉ = 25 := by
          rw [Int.ceil_eq_iff]
          norm_num
        rw [this]
        decide)
    refine ⟨st, hst, ?_⟩
    rw [hi, Int.ceil_eq_iff]
    norm_num

/-- C18, amended: for an importance map whose rate `p_accept`, as the code computes
it in `float`, is a value `q > 0`, and for `N >= 0` such that the `float` quotient
`Q = N / p_accept` of the loop test is at most `2^24`, the main loop of the
importance sampler returns after exactly `ceil(Q)` iterations, one candidate
position each, whatever the draws and whichever candidates are accepted;
`ceil(Q)` is the number of integers `i >= 0` with `i < Q`.  The oriented sampler
does the same when every bucket it can look up is a valid index.  The calls are
valid ones: the canvas is not empty, the importance map (and, for the oriented
sampler, `im`) covers it, and the colour and the textures have the channels of the
canvas. -/
theorem main_loop_iteration_count (L : Lib) (rand : Nat → Nat) (fuel : Nat)
    (im importance out tensor texture : Image) (size N : Int) (noise : ℚ) (nAngles : Int)
    (q Q : ℚ)
    (hrate : acceptanceRate32 importance = .fin q) (hq : 0 < q) (hN : 0 ≤ N)
    (hQ : FloatVal.div32 (FloatVal.ofInt32 N) (.fin q) = .fin Q) (hQmax : Q ≤ 2 ^ 24)
    (hfuel : ⌈Q⌉.toNat ≤ fuel)
    (hsize : 0 < out.width ∧ 0 < out.height)
    (_hcover : out.width ≤ importance.width ∧ out.height ≤ importance.height)
    (_hchan : out.channels ≤ 3 ∧ 3 ≤ im.channels) :
    (out.channels ≤ (L.scaleLin texture (scaleFactor texture size)).channels →
      ∃ st, singleScalePaintImportance32 L rand fuel im importance out texture size N noise
        = .returned st ∧ st.i = ⌈Q⌉) ∧
    ((out.width ≤ im.width ∧ out.height ≤ im.height) →
      (∀ x y : Int, (0 ≤ x ∧ x < out.width) → (0 ≤ y ∧ y < out.height) →
        ∃ t, textureAt
            (rotateBrushes L (L.scaleLin texture (scaleFactor texture size)) nAngles)
            ((angleTextures L im tensor nAngles).px x y 0) = some t ∧
          out.channels ≤ t.channels) →
      ∃ st, singleScaleOrientedPaint32 L rand fuel im importance out tensor texture size N
        noise nAngles = .returned st ∧ st.i = ⌈Q⌉) ∧
    (0 ≤ ⌈Q⌉ ∧ ⌈Q⌉ ≤ 2 ^ 24 ∧ ∀ i : Int, (i : ℚ) < Q ↔ i < ⌈Q⌉) := by
  obtain ⟨hc0, hc24⟩ := ceil_quotient32_bounds N q Q hN hq hQ hQmax
  refine ⟨fun _ => ?_, fun _ hlookup => ?_, hc0, hc24, fun i => Int.lt_ceil.symm⟩
  · exact importance32_returns L rand fuel im importance out texture size N noise q Q
      hrate hq hN hQ hQmax hfuel
  · refine oriented32_returns L rand fuel im importance out tensor texture size N noise
      nAngles q Q hrate hq hN hQ hQmax hfuel hsize (fun x y hx hy => ?_)
    obtain ⟨t, ht, -⟩ := hlookup x y hx hy
    exact ⟨t, ht⟩

theorem main_loop_iteration_count_witness :
    ∃ st, singleScalePaintImportance32 axisLib (fun k => 7 * k) 40 (constImage 1 1 3 1)
        sparseMap (constImage 1 1 3 0) (constImage 1 1 3 1) 1 1 (1 / 10)
        = .returned st ∧ st.i = ⌈(25 : ℚ)⌉ :=
  (main_loop_iteration_count axisLib (fun k => 7 * k) 40 (constImage 1 1 3 1) sparseMap
    (constImage 1 1 3 0) rowTensor (constImage 1 1 3 1) 1 1 (1 / 10) 4 float004 25
    acceptanceRate32_sparseMap (by norm_num [float004]) (by decide) quotient32_sparseMap
    (by norm_num)
    (by
      have : ⌈(25 : ℚ)⌉ = 25 := by
        rw [Int.ceil_eq_iff]
        norm_num
      rw [this]
      decide)
    (by decide) (by decide) (by decide)).1 (by decide)

/-! ## Later strokes overwrite earlier ones: C19 -/

theorem composite_append (texture canvas : Image) (strokes : List Stroke) (s : Stroke) :
    composite texture canvas (strokes ++ [s])
      = brush (composite texture canvas strokes) s.x s.y s.color texture := by
  simp [composite, List.foldl_append]

theorem composite_dims (texture canvas : Image) (strokes : List Stroke) :
    (composite texture canvas strokes).width = canvas.width ∧
    (composite texture canvas strokes).height = canvas.height ∧
    (composite texture canvas strokes).channels = canvas.channels := by
  induction strokes using List.reverseRecOn with
  | nil => exact ⟨rfl, rfl, rfl⟩
  | append_singleton l s ih =>
    rw [composite_append]
    obtain ⟨h1, h2, h3⟩ := brush_dims (composite texture canvas l) s.x s.y s.color texture
    exact ⟨h1.trans ih.1, h2.trans ih.2.1, h3.trans ih.2.2⟩

theorem brush_px_opaque (canvas : Image) (x y : Int) (color : List ℚ) (texture : Image)
    (hone : ∀ a b d : Int, 0 ≤ a ∧ a < texture.width → 0 ≤ b ∧ b < texture.height →
      0 ≤ d ∧ d < texture.channels → texture.px a b d = 1)
    (htex : canvas.channels ≤ texture.channels) (p q c : Int) :
    (brush canvas x y color texture).px p q c
      = if Covered canvas.width canvas.height canvas.channels x y texture p q c
        then colorAt color c else canvas.px p q c := by
  rw [brush_px]
  split_ifs with hcov
  · obtain ⟨a, b, _, e⟩ := hcov
    unfold blend
    rw [hone _ _ _ ⟨by omega, by omega⟩ ⟨by omega, by omega⟩ ⟨e.1, by omega⟩]
    ring
  · rfl

theorem paint_out_eq_composite (L : Lib) (rand : Nat → Nat) (im out texture : Image)
    (size N : Int) (noise : ℚ) :
    (singleScalePaint L rand im out texture size N noise).out
      = composite (L.scaleLin texture (scaleFactor texture size)) out
          (singleScalePaint L rand im out texture size N noise).strokes :=
  forLoop_invariant
    (fun st : SamplerState =>
      st.out = composite (L.scaleLin texture (scaleFactor texture size)) out st.strokes) 0 N
    (fun _ st => paintStep L.RAND_MAX rand im (L.scaleLin texture (scaleFactor texture size))
      noise st)
    (fun _ st hst => by
      unfold paintStep
      dsimp only
      rw [composite_append, ← hst])
    ⟨out, 0, 0, []⟩ rfl

theorem importance_out_eq_composite (L : Lib) (rand : Nat → Nat) (fuel : Nat)
    (im importance out texture : Image) (size N : Int) (noise : ℚ) (st : SamplerState)
    (hst : (singleScalePaintImportance L rand fuel im importance out texture size N
      noise).reached = some st) :
    st.out = composite (L.scaleLin texture (scaleFactor texture size)) out st.strokes := by
  refine boundedLoop_invariant
    (fun s : SamplerState =>
      s.out = composite (L.scaleLin texture (scaleFactor texture size)) out s.strokes)
    _ _ ?_ fuel ⟨out, 0, 0, []⟩ rfl st hst
  intro s t hs _ hb
  simp only [Option.some.injEq] at hb
  subst hb
  unfold importanceStep
  dsimp only
  split_ifs
  · dsimp only
    rw [composite_append, ← hs]
  · exact hs

/-- C19: the canvas of `singleScalePaint` (and of the importance sampler) is its
strokes composited in iteration order, and for a texture whose samples are all 1 a sample covered by at least one
stroke of a sequence ends with the colour of the last stroke of the sequence whose
footprint covers it, while a sample covered by none keeps its initial value. -/
theorem last_covering_stroke_wins (texture canvas : Image) (strokes : List Stroke)
    (p q c : Int)
    (hone : ∀ a b d : Int, 0 ≤ a ∧ a < texture.width → 0 ≤ b ∧ b < texture.height →
      0 ≤ d ∧ d < texture.channels → texture.px a b d = 1)
    (htex : canvas.channels ≤ texture.channels) :
    ((∃ s ∈ strokes, Covered canvas.width canvas.height canvas.channels s.x s.y texture p q c) →
      ∃ pre s post, strokes = pre ++ s :: post ∧
        Covered canvas.width canvas.height canvas.channels s.x s.y texture p q c ∧
        (∀ t ∈ post, ¬ Covered canvas.width canvas.height canvas.channels t.x t.y texture p q c) ∧
        (composite texture canvas strokes).px p q c = colorAt s.color c) ∧
    ((∀ s ∈ strokes, ¬ Covered canvas.width canvas.height canvas.channels s.x s.y texture p q c) →
      (composite texture canvas strokes).px p q c = canvas.px p q c) ∧
    (∀ (L : Lib) (rand : Nat → Nat) (im out tex : Image) (size N : Int) (noise : ℚ),
      (singleScalePaint L rand im out tex size N noise).out
        = composite (L.scaleLin tex (scaleFactor tex size)) out
            (singleScalePaint L rand im out tex size N noise).strokes) ∧
    (∀ (L : Lib) (rand : Nat → Nat) (fuel : Nat) (im importance out tex : Image)
        (size N : Int) (noise : ℚ) (st : SamplerState),
      (singleScalePaintImportance L rand fuel im importance out tex size N noise).reached
          = some st →
        st.out = composite (L.scaleLin tex (scaleFactor tex size)) out st.strokes) := by
  refine ⟨?_, ?_, fun L rand im out tex size N noise =>
    paint_out_eq_composite L rand im out tex size N noise,
    fun L rand fuel im importance out tex size N noise st hst =>
      importance_out_eq_composite L rand fuel im importance out tex size N noise st hst⟩
  · induction strokes using List.reverseRecOn with
    | nil =>
      rintro ⟨s, hs, -⟩
      simp at hs
    | append_singleton l s ih =>
      intro hex
      obtain ⟨d1, d2, d3⟩ := composite_dims texture canvas l
      have hpx := brush_px_opaque (composite texture canvas l) s.x s.y s.color texture hone
        (by rw [d3]; exact htex) p q c
      rw [d1, d2, d3] at hpx
      by_cases hs : Covered canvas.width canvas.height canvas.channels s.x s.y texture p q c
      · refine ⟨l, s, [], rfl, hs, fun t ht => by simp at ht, ?_⟩
        rw [composite_append, hpx, if_pos hs]
      · have hex1 : ∃ t ∈ l,
            Covered canvas.width canvas.height canvas.channels t.x t.y texture p q c := by
          obtain ⟨t, ht, hc⟩ := hex
          simp only [List.mem_append, List.mem_singleton] at ht
          rcases ht with ht | rfl
          · exact ⟨t, ht, hc⟩
          · exact absurd hc hs
        obtain ⟨pre, s1, post, hl, hc1, hpost, hval⟩ := ih hex1
        refine ⟨pre, s1, post ++ [s], by rw [hl]; simp, hc1, ?_, ?_⟩
        · intro t ht
          simp only [List.mem_append, List.mem_singleton] at ht
          rcases ht with ht | rfl
          · exact hpost t ht
          · exact hs
        · rw [composite_append, hpx, if_neg hs, hval]
  · induction strokes using List.reverseRecOn with
    | nil =>
      intro _
      rfl
    | append_singleton l s ih =>
      intro hno
      obtain ⟨d1, d2, d3⟩ := composite_dims texture canvas l
      have hpx := brush_px_opaque (composite texture canvas l) s.x s.y s.color texture hone
        (by rw [d3]; exact htex) p q c
      rw [d1, d2, d3] at hpx
      have hs := hno s (by simp)
      rw [composite_append, hpx, if_neg hs]
      exact ih (fun t ht => hno t (by simp [ht]))

theorem last_covering_stroke_wins_witness :
    ∃ pre s post, [(⟨0, 0, [5]⟩ : Stroke), ⟨1, 1, [7]⟩, ⟨2, 2, [9]⟩] = pre ++ s :: post ∧
      Covered rampCanvas.width rampCanvas.height rampCanvas.channels s.x s.y (flatTexture 1)
        0 0 0 ∧
      (∀ t ∈ post, ¬ Covered rampCanvas.width rampCanvas.height rampCanvas.channels t.x t.y
        (flatTexture 1) 0 0 0) ∧
      (composite (flatTexture 1) rampCanvas [⟨0, 0, [5]⟩, ⟨1, 1, [7]⟩, ⟨2, 2, [9]⟩]).px 0 0 0
        = colorAt s.color 0 :=
  (last_covering_stroke_wins (flatTexture 1) rampCanvas [⟨0, 0, [5]⟩, ⟨1, 1, [7]⟩, ⟨2, 2, [9]⟩]
    0 0 0 (fun _ _ _ _ _ _ => rfl) (by decide)).1 ⟨⟨1, 1, [7]⟩, by simp, by decide⟩

/-! ## The first pass of `painterly`: C14 -/

theorem mem_forLoop_range (lo hi i : Int) :
    i ∈ (List.range (hi - lo).toNat).map (fun k : Nat => lo + (k : Int)) ↔ lo ≤ i ∧ i < hi := by
  simp only [List.mem_map, List.mem_range]
  constructor
  · rintro ⟨k, hk, rfl⟩
    omega
  · intro hh
    exact ⟨(i - lo).toNat, by omega, by omega⟩

theorem maxStep_single (v : ℚ) : MaxStep (fun u => u = v) (fun m => Max.max m v) := by
  intro m
  refine ⟨le_max_left _ _, fun u hu => hu ▸ le_max_right _ _, ?_⟩
  rcases le_total m v with h | h
  · exact Or.inr (max_eq_right h)
  · exact Or.inl (max_eq_left h)

theorem maxStep_forLoop (lo hi : Int) (S : Int → ℚ → Prop) (G : Int → ℚ → ℚ)
    (h : ∀ i, MaxStep (S i) (G i)) :
    MaxStep (fun v => ∃ i, (lo ≤ i ∧ i < hi) ∧ S i v)
      (fun m => forLoop lo hi (fun i m => G i m) m) := by
  have key : ∀ (l : List Int) (m : ℚ),
      m ≤ l.foldl (fun m i => G i m) m ∧
      (∀ v, (∃ i, i ∈ l ∧ S i v) → v ≤ l.foldl (fun m i => G i m) m) ∧
      (l.foldl (fun m i => G i m) m = m ∨
        ∃ i, i ∈ l ∧ S i (l.foldl (fun m i => G i m) m)) := by
    intro l
    induction l with
    | nil =>
      intro m
      exact ⟨le_refl _, fun v hv => by obtain ⟨i, hmem, -⟩ := hv; simp at hmem, Or.inl rfl⟩
    | cons a l ih =>
      intro m
      obtain ⟨a1, a2, a3⟩ := h a m
      obtain ⟨b1, b2, b3⟩ := ih (G a m)
      simp only [List.foldl_cons]
      refine ⟨a1.trans b1, ?_, ?_⟩
      · rintro v ⟨i, hmem, hv⟩
        rcases List.mem_cons.1 hmem with rfl | hmem
        · exact (a2 v hv).trans b1
        · exact b2 v ⟨i, hmem, hv⟩
      · rcases b3 with e | ⟨i, hmem, hv⟩
        · rcases a3 with e1 | hS
          · exact Or.inl (e.trans e1)
          · exact Or.inr ⟨a, List.mem_cons_self _ _, by rw [e]; exact hS⟩
        · exact Or.inr ⟨i, List.mem_cons_of_mem _ hmem, hv⟩
  intro m
  obtain ⟨c1, c2, c3⟩ :=
    key ((List.range (hi - lo).toNat).map (fun k : Nat => lo + (k : Int))) m
  refine ⟨c1, ?_, ?_⟩
  · rintro v ⟨i, hmem, hv⟩
    exact c2 v ⟨i, (mem_forLoop_range lo hi i).2 hmem, hv⟩
  · rcases c3 with e | ⟨i, hmem, hv⟩
    · exact Or.inl e
    · exact Or.inr ⟨i, (mem_forLoop_range lo hi i).1 hmem, hv⟩

/-- The maximum of a non-empty image bounds every sample and is one of them. -/
theorem Image.max_spec (im : Image) (hW : 0 < im.width) (hH : 0 < im.height)
    (hC : 0 < im.channels) :
    (∀ x y z : Int, (0 ≤ x ∧ x < im.width) → (0 ≤ y ∧ y < im.height) →
      (0 ≤ z ∧ z < im.channels) → im.px x y z ≤ im.max) ∧
    ∃ x y z : Int, (0 ≤ x ∧ x < im.width) ∧ (0 ≤ y ∧ y < im.height) ∧
      (0 ≤ z ∧ z < im.channels) ∧ im.px x y z = im.max := by
  have hstep := maxStep_forLoop 0 im.width _ _
    (fun x => maxStep_forLoop 0 im.height _ _
      (fun y => maxStep_forLoop 0 im.channels _ _ (fun z => maxStep_single (im.px x y z))))
  obtain ⟨-, h2, h3⟩ := hstep (im.px 0 0 0)
  have hdef : forLoop 0 im.width
      (fun x m => forLoop 0 im.height
        (fun y m => forLoop 0 im.channels (fun z m => Max.max m (im.px x y z)) m) m)
      (im.px 0 0 0) = im.max := rfl
  beta_reduce at h2 h3
  rw [hdef] at h2 h3
  constructor
  · intro x y z hx hy hz
    exact h2 _ ⟨x, hx, y, hy, z, hz, rfl⟩
  · rcases h3 with e | ⟨x, hx, y, hy, z, hz, e⟩
    · exact ⟨0, 0, 0, ⟨le_refl _, hW⟩, ⟨le_refl _, hH⟩, ⟨le_refl _, hC⟩, e.symm⟩
    · exact ⟨x, y, z, hx, hy, hz, e.symm⟩

theorem Image.max_of_const (im : Image) (v : ℚ) (hW : 0 < im.width) (hH : 0 < im.height)
    (hC : 0 < im.channels)
    (hv : ∀ x y z : Int, (0 ≤ x ∧ x < im.width) → (0 ≤ y ∧ y < im.height) →
      (0 ≤ z ∧ z < im.channels) → im.px x y z = v) :
    im.max = v := by
  obtain ⟨x, y, z, hx, hy, hz, e⟩ := (Image.max_spec im hW hH hC).2
  rw [← e]
  exact hv x y z hx hy hz

/-- C11 (the code departs from it): when the smoothed detail energy `lum_sharp` is
zero at every pixel its maximum is 0 and `lum_sharp / lum_sharp.max()` divides 0 by
0 at every pixel: the map returned holds a NaN, not 0, in every sample; the code
has no special case. -/
theorem sharpnessMap_of_flat_is_nan (F : Filters) (im : Image) (sigma : ℚ)
    (hW : 0 < (lum_sharp F im sigma).width) (hH : 0 < (lum_sharp F im sigma).height)
    (hC : 0 < (lum_sharp F im sigma).channels)
    (hzero : ∀ x y z : Int, (0 ≤ x ∧ x < (lum_sharp F im sigma).width) →
      (0 ≤ y ∧ y < (lum_sharp F im sigma).height) →
      (0 ≤ z ∧ z < (lum_sharp F im sigma).channels) → (lum_sharp F im sigma).px x y z = 0) :
    (lum_sharp F im sigma).max = 0 ∧
    ∀ x y z : Int, (0 ≤ x ∧ x < (sharpnessMap F im sigma).width) →
      (0 ≤ y ∧ y < (sharpnessMap F im sigma).height) →
      (0 ≤ z ∧ z < (sharpnessMap F im sigma).channels) →
      (sharpnessMap F im sigma).px x y z = .nan ∧
      (sharpnessMap F im sigma).px x y z ≠ .fin 0 := by
  have hmax := Image.max_of_const (lum_sharp F im sigma) 0 hW hH hC hzero
  refine ⟨hmax, fun x y z hx hy hz => ?_⟩
  have hval : (sharpnessMap F im sigma).px x y z = .nan := by
    have e : (sharpnessMap F im sigma).px x y z
        = FloatVal.div (.fin ((lum_sharp F im sigma).px x y z))
            (.fin (lum_sharp F im sigma).max) := rfl
    rw [e, hmax, hzero x y z hx hy hz]
    simp [FloatVal.div]
  refine ⟨hval, ?_⟩
  rw [hval]
  intro h
  cases h

theorem sharpnessMap_of_flat_is_nan_witness :
    (sharpnessMap axisFilters (constImage 2 2 1 (1 / 2)) 1).px 1 0 0 = .nan ∧
    (sharpnessMap axisFilters (constImage 2 2 1 (1 / 2)) 1).px 1 0 0 ≠ .fin 0 :=
  (sharpnessMap_of_flat_is_nan axisFilters (constImage 2 2 1 (1 / 2)) 1
    (by decide) (by decide) (by decide)
    (fun _ _ _ _ _ _ => by
      simp [lum_sharp, axisFilters, Image.sub, Image.mul, constImage])).2 1 0 0
    (by decide) (by decide) (by decide)

theorem scaledBlur_kernel (t : ℚ) (ht : 0 ≤ t) : NonnegKernel (scaledBlur t) := by
  intro im sigma
  refine ⟨rfl, rfl, rfl, fun x y a b => if a = x ∧ b = y then t else 0, ?_, ?_⟩
  · intro x y a b
    dsimp only
    split_ifs
    · exact ht
    · exact le_refl _
  · intro x y c hx hy _
    have ex : ((x.toNat : Nat) : Int) = x := Int.toNat_of_nonneg hx.1
    have ey : ((y.toNat : Nat) : Int) = y := Int.toNat_of_nonneg hy.1
    beta_reduce
    rw [Finset.sum_eq_single x.toNat]
    · rw [Finset.sum_eq_single y.toNat]
      · rw [ex, ey, if_pos ⟨rfl, rfl⟩]
        rfl
      · intro b _ hne
        have : ¬ (((x.toNat : Nat) : Int) = x ∧ (b : Int) = y) := fun hh => hne (by omega)
        rw [if_neg this, zero_mul]
      · intro hno
        exact absurd (Finset.mem_range.2 (by omega)) hno
    · intro a _ hne
      apply Finset.sum_eq_zero
      intro b _
      have : ¬ ((a : Int) = x ∧ (b : Int) = y) := fun hh => hne (by omega)
      rw [if_neg this, zero_mul]
    · intro hno
      exact absurd (Finset.mem_range.2 (by omega)) hno

theorem lum_sharp_nonneg (F : Filters) (im : Image) (sigma : ℚ)
    (hk : NonnegKernel F.gaussianBlur_2D) (x y z : Int)
    (hx : 0 ≤ x ∧ x < (lum_sharp F im sigma).width)
    (hy : 0 ≤ y ∧ y < (lum_sharp F im sigma).height)
    (hz : 0 ≤ z ∧ z < (lum_sharp F im sigma).channels) :
    0 ≤ (lum_sharp F im sigma).px x y z := by
  obtain ⟨d1, d2, d3, w, hw, hpx⟩ := hk
    (((F.luminance im).sub (F.gaussianBlur_2D (F.luminance im) sigma)).mul
      ((F.luminance im).sub (F.gaussianBlur_2D (F.luminance im) sigma))) (4 * sigma)
  have e : lum_sharp F im sigma = F.gaussianBlur_2D
      (((F.luminance im).sub (F.gaussianBlur_2D (F.luminance im) sigma)).mul
        ((F.luminance im).sub (F.gaussianBlur_2D (F.luminance im) sigma))) (4 * sigma) := rfl
  rw [e] at hx hy hz ⊢
  rw [d1] at hx
  rw [d2] at hy
  rw [d3] at hz
  rw [hpx x y z hx hy hz]
  apply Finset.sum_nonneg
  intro a _
  apply Finset.sum_nonneg
  intro b _
  exact mul_nonneg (hw x y a b) (mul_self_nonneg _)

/-- C12: when the blur is a combination of the input samples with non-negative
weights and the smoothed detail energy has a strictly positive maximum, every
sample of the map `sharpnessMap` returns is a finite value of `[0, 1]` and the
value 1 is attained at some pixel. -/
theorem sharpnessMap_unit_range (F : Filters) (im : Image) (sigma : ℚ)
    (hk : NonnegKernel F.gaussianBlur_2D)
    (hW : 0 < (lum_sharp F im sigma).width) (hH : 0 < (lum_sharp F im sigma).height)
    (hC : 0 < (lum_sharp F im sigma).channels)
    (hmax : 0 < (lum_sharp F im sigma).max) :
    (∀ x y z : Int, (0 ≤ x ∧ x < (sharpnessMap F im sigma).width) →
      (0 ≤ y ∧ y < (sharpnessMap F im sigma).height) →
      (0 ≤ z ∧ z < (sharpnessMap F im sigma).channels) →
      ∃ v : ℚ, (sharpnessMap F im sigma).px x y z = .fin v ∧ 0 ≤ v ∧ v ≤ 1) ∧
    ∃ x y z : Int, (0 ≤ x ∧ x < (sharpnessMap F im sigma).width) ∧
      (0 ≤ y ∧ y < (sharpnessMap F im sigma).height) ∧
      (0 ≤ z ∧ z < (sharpnessMap F im sigma).channels) ∧
      (sharpnessMap F im sigma).px x y z = .fin 1 := by
  obtain ⟨hle, x0, y0, z0, hx0, hy0, hz0, hatt⟩ := Image.max_spec (lum_sharp F im sigma) hW hH hC
  have hval : ∀ x y z : Int, (sharpnessMap F im sigma).px x y z
      = .fin ((lum_sharp F im sigma).px x y z / (lum_sharp F im sigma).max) := by
    intro x y z
    have e : (sharpnessMap F im sigma).px x y z
        = FloatVal.div (.fin ((lum_sharp F im sigma).px x y z))
            (.fin (lum_sharp F im sigma).max) := rfl
    rw [e, FloatVal.div_fin_of_ne _ _ (ne_of_gt hmax)]
  constructor
  · intro x y z hx hy hz
    refine ⟨_, hval x y z, ?_, ?_⟩
    · exact div_nonneg (lum_sharp_nonneg F im sigma hk x y z hx hy hz) hmax.le
    · exact (div_le_one hmax).2 (hle x y z hx hy hz)
  · refine ⟨x0, y0, z0, hx0, hy0, hz0, ?_⟩
    rw [hval, hatt, div_self (ne_of_gt hmax)]

theorem sharpnessMap_unit_range_witness :
    ∃ x y z : Int, (0 ≤ x ∧ x < (sharpnessMap halfFilters (constImage 2 2 1 1) 1).width) ∧
      (0 ≤ y ∧ y < (sharpnessMap halfFilters (constImage 2 2 1 1) 1).height) ∧
      (0 ≤ z ∧ z < (sharpnessMap halfFilters (constImage 2 2 1 1) 1).channels) ∧
      (sharpnessMap halfFilters (constImage 2 2 1 1) 1).px x y z = .fin 1 :=
  (sharpnessMap_unit_range halfFilters (constImage 2 2 1 1) 1
    (scaledBlur_kernel (1 / 2) (by norm_num)) (by decide) (by decide) (by decide)
    (by
      rw [Image.max_of_const (lum_sharp halfFilters (constImage 2 2 1 1) 1) (1 / 8)
        (by decide) (by decide) (by decide)
        (fun _ _ _ _ _ _ => by
          simp only [lum_sharp, halfFilters, scaledBlur, Image.sub, Image.mul, constImage]
          norm_num)]
      norm_num)).2

/-! ## The structure tensor: C13 -/

/-- The weighted Cauchy-Schwarz inequality over the pixels of a `W x H` grid. -/
theorem weighted_cauchy_schwarz (W H : Nat) (w u v : Nat → Nat → ℚ)
    (hw : ∀ a b, 0 ≤ w a b) :
    (∑ a in Finset.range W, ∑ b in Finset.range H, w a b * (u a b * v a b)) ^ 2
      ≤ (∑ a in Finset.range W, ∑ b in Finset.range H, w a b * (u a b * u a b))
        * ∑ a in Finset.range W, ∑ b in Finset.range H, w a b * (v a b * v a b) := by
  rw [← Finset.sum_product' (Finset.range W) (Finset.range H)
      (fun a b => w a b * (u a b * v a b)),
    ← Finset.sum_product' (Finset.range W) (Finset.range H)
      (fun a b => w a b * (u a b * u a b)),
    ← Finset.sum_product' (Finset.range W) (Finset.range H)
      (fun a b => w a b * (v a b * v a b))]
  apply Finset.sum_sq_le_sum_mul_sum_of_sq_eq_mul
  · intro i _
    exact mul_nonneg (hw _ _) (mul_self_nonneg _)
  · intro i _
    exact mul_nonneg (hw _ _) (mul_self_nonneg _)
  · intro i _
    ring

/-- C13: when the tensor-smoothing blur is a combination of the per-pixel outer
products with non-negative weights shared by the three channels, the tensor
`computeTensor` returns is positive semi-definite at every pixel of `im`:
`Ixx >= 0`, `Iyy >= 0` and `Ixy^2 <= Ixx * Iyy`. -/
theorem computeTensor_positive_semidefinite (F : Filters) (im : Image)
    (sigmaG factorSigma : ℚ) (hk : NonnegKernel F.gaussianBlur_separable) (x y : Int)
    (hx : 0 ≤ x ∧ x < im.width) (hy : 0 ≤ y ∧ y < im.height) :
    0 ≤ (computeTensor F im sigmaG factorSigma).px x y 0 ∧
    0 ≤ (computeTensor F im sigmaG factorSigma).px x y 2 ∧
    (computeTensor F im sigmaG factorSigma).px x y 1 ^ 2
      ≤ (computeTensor F im sigmaG factorSigma).px x y 0
        * (computeTensor F im sigmaG factorSigma).px x y 2 := by
  have e : computeTensor F im sigmaG factorSigma
      = F.gaussianBlur_separable
          (outerProducts im
            (F.gradientX (F.gaussianBlur_separable (F.luminance im) sigmaG))
            (F.gradientY (F.gaussianBlur_separable (F.luminance im) sigmaG)))
          (sigmaG * factorSigma) := rfl
  obtain ⟨m1, m2, m3, hM⟩ := outerProducts_px im
    (F.gradientX (F.gaussianBlur_separable (F.luminance im) sigmaG))
    (F.gradientY (F.gaussianBlur_separable (F.luminance im) sigmaG))
  obtain ⟨-, -, -, w, hw, hpx⟩ := hk
    (outerProducts im
      (F.gradientX (F.gaussianBlur_separable (F.luminance im) sigmaG))
      (F.gradientY (F.gaussianBlur_separable (F.luminance im) sigmaG)))
    (sigmaG * factorSigma)
  rw [m1, m2, m3] at hpx
  have hcell : ∀ a ∈ Finset.range im.width.toNat, ∀ b ∈ Finset.range im.height.toNat,
      (0 ≤ (a : Int) ∧ (a : Int) < im.width) ∧ (0 ≤ (b : Int) ∧ (b : Int) < im.height) := by
    intro a ha b hb
    rw [Finset.mem_range] at ha hb
    exact ⟨⟨by omega, by omega⟩, ⟨by omega, by omega⟩⟩
  have h0 := hpx x y 0 hx hy (by decide)
  have h1 := hpx x y 1 hx hy (by decide)
  have h2 := hpx x y 2 hx hy (by decide)
  rw [Finset.sum_congr rfl (fun a ha => Finset.sum_congr rfl (fun b hb => by
    rw [(hM a b (hcell a ha b hb).1 (hcell a ha b hb).2).1]))] at h0
  rw [Finset.sum_congr rfl (fun a ha => Finset.sum_congr rfl (fun b hb => by
    rw [(hM a b (hcell a ha b hb).1 (hcell a ha b hb).2).2.1]))] at h1
  rw [Finset.sum_congr rfl (fun a ha => Finset.sum_congr rfl (fun b hb => by
    rw [(hM a b (hcell a ha b hb).1 (hcell a ha b hb).2).2.2]))] at h2
  rw [e, h0, h1, h2]
  refine ⟨?_, ?_, ?_⟩
  · exact Finset.sum_nonneg (fun a _ => Finset.sum_nonneg (fun b _ =>
      mul_nonneg (hw x y a b) (mul_self_nonneg _)))
  · exact Finset.sum_nonneg (fun a _ => Finset.sum_nonneg (fun b _ =>
      mul_nonneg (hw x y a b) (mul_self_nonneg _)))
  · exact weighted_cauchy_schwarz im.width.toNat im.height.toNat
      (fun a b => w x y (a : Int) (b : Int))
      (fun a b => (F.gradientX (F.gaussianBlur_separable (F.luminance im) sigmaG)).px
        (a : Int) (b : Int) 0)
      (fun a b => (F.gradientY (F.gaussianBlur_separable (F.luminance im) sigmaG)).px
        (a : Int) (b : Int) 0)
      (fun a b => hw x y a b)

theorem computeTensor_positive_semidefinite_witness :
    0 ≤ (computeTensor halfFilters rampCanvas 1 4).px 1 2 0 ∧
    0 ≤ (computeTensor halfFilters rampCanvas 1 4).px 1 2 2 ∧
    (computeTensor halfFilters rampCanvas 1 4).px 1 2 1 ^ 2
      ≤ (computeTensor halfFilters rampCanvas 1 4).px 1 2 0
        * (computeTensor halfFilters rampCanvas 1 4).px 1 2 2 :=
  computeTensor_positive_semidefinite halfFilters rampCanvas 1 4
    (scaledBlur_kernel (1 / 2) (by norm_num)) 1 2 (by decide) (by decide)

end Npr
